import Mathlib

/-!
Verification of the `rimple` storage kernel (Page codec, LogManager /
LogIterator, Buffer / BufferManager) against its natural-language
specification.

The Rust sources are shallowly embedded: pages are lists of natural
numbers standing for bytes, machine integers become `Nat`/`Int` with
explicit wrap-around where the source casts, fallible operations return
`Except` (and operations on `&mut self` additionally return the possibly
mutated state, mirroring the fact that a Rust early-return with `?` keeps
whatever mutation already happened), and a panic (`unwrap`, index out of
range) is modelled by `Option.none`.
-/

set_option maxHeartbeats 1000000

namespace Rimple

/-- Errors of page operations, mirroring `PageError` in `src/file/page.rs`. -/
inductive PageError where
  | outOfBounds : PageError
  | invalidData : PageError
  | sizeExceeded (requested : Nat) (available : Nat) : PageError
deriving DecidableEq, Repr

instance {ε α : Type} [DecidableEq ε] [DecidableEq α] : DecidableEq (Except ε α) := fun x y =>
  match x, y with
  | .error a, .error b =>
    if h : a = b then .isTrue (by rw [h]) else .isFalse (by intro hh; cases hh; exact h rfl)
  | .ok a, .ok b =>
    if h : a = b then .isTrue (by rw [h]) else .isFalse (by intro hh; cases hh; exact h rfl)
  | .error _, .ok _ => .isFalse (by intro hh; cases hh)
  | .ok _, .error _ => .isFalse (by intro hh; cases hh)

/-- Interpretation of a Rust `i32 as usize` cast (64-bit target):
sign extension followed by reinterpretation, i.e. reduction mod `2^64`. -/
def intToUsize (v : Int) : Nat := (v % (2 ^ 64 : Int)).toNat

/-- Interpretation of a Rust `usize as i32` / `len as i32` cast:
two's-complement wrap-around into `[-2^31, 2^31)`. -/
def natToI32 (n : Nat) : Int :=
  let m : Nat := n % 2 ^ 32
  if m < 2 ^ 31 then (m : Int) else (m : Int) - 2 ^ 32

/-- The four big-endian bytes of `i32::to_be_bytes` for the value `v`
(two's complement). -/
def i32ToBytes (v : Int) : List Nat :=
  let n := (v % (2 ^ 32 : Int)).toNat
  [n / 2 ^ 24 % 2 ^ 8, n / 2 ^ 16 % 2 ^ 8, n / 2 ^ 8 % 2 ^ 8, n % 2 ^ 8]

/-- Model of `i32::from_be_bytes` applied to the four bytes of `p` at `offset`
(big-endian, two's complement). -/
def readBE4 (p : List Nat) (offset : Nat) : Int :=
  let n : Nat := p.getD offset 0 * 2 ^ 24 + p.getD (offset + 1) 0 * 2 ^ 16 +
    p.getD (offset + 2) 0 * 2 ^ 8 + p.getD (offset + 3) 0
  if n < 2 ^ 31 then (n : Int) else (n : Int) - 2 ^ 32

/-- Model of `copy_from_slice` of `bs` into `p` starting at `offset`
(callers establish `offset + bs.length ≤ p.length`). -/
def writeAt (p : List Nat) (offset : Nat) (bs : List Nat) : List Nat :=
  p.take offset ++ bs ++ p.drop (offset + bs.length)

/-- The subslice `p[a..a+n]` (as `&self.content[start..end]` in the source). -/
def slice (p : List Nat) (a n : Nat) : List Nat := (p.drop a).take n

/-- Model of `Page::get_integer`: bounds check then big-endian decode
(the `try_into` on a 4-byte slice cannot fail). -/
def getIntegerP (p : List Nat) (offset : Nat) : Except PageError Int :=
  if offset + 4 ≤ p.length then .ok (readBE4 p offset) else .error .outOfBounds

/-- Model of `Page::set_integer`: bounds check, then write the 4 big-endian bytes.
Returns the result together with the (possibly unchanged) page, mirroring
`&mut self`. -/
def setIntegerP (p : List Nat) (offset : Nat) (v : Int) :
    Except PageError Unit × List Nat :=
  if offset + 4 ≤ p.length then (.ok (), writeAt p offset (i32ToBytes v))
  else (.error .outOfBounds, p)

/-- Model of `Page::get_bytes`: bounds check on the 4-byte length prefix, decode it,
reject a negative stored length (`usize::try_from` failure) and a length
reaching past the page end; otherwise return the payload slice. -/
def getBytesP (p : List Nat) (offset : Nat) : Except PageError (List Nat) :=
  if offset + 4 ≤ p.length then
    match getIntegerP p offset with
    | .error e => .error e
    | .ok len =>
      if len < 0 then .error .invalidData
      else if offset + 4 + len.toNat > p.length then .error .invalidData
      else .ok (slice p (offset + 4) len.toNat)
  else .error .outOfBounds

/-- Model of `Page::set_bytes`: bounds check on the prefix position, size check for
prefix plus payload, then write the length prefix (`let _ = set_integer`)
followed by the payload bytes. -/
def setBytesP (p : List Nat) (offset : Nat) (bytes : List Nat) :
    Except PageError Unit × List Nat :=
  if offset + 4 ≤ p.length then
    if offset + 4 + bytes.length > p.length then
      (.error (.sizeExceeded (offset + 4 + bytes.length) p.length), p)
    else
      let p1 := (setIntegerP p offset (natToI32 bytes.length)).2
      (.ok (), writeAt p1 (offset + 4) bytes)
  else (.error .outOfBounds, p)

/-- Model of `Page::set_string`: delegates to `set_bytes` on the string's UTF-8 bytes;
the argument is already the byte sequence. -/
def setStringP (p : List Nat) (offset : Nat) (s : List Nat) :
    Except PageError Unit × List Nat :=
  setBytesP p offset s

/-- A zero-filled page of `Page::with_size`. -/
def zeroPage (size : Nat) : List Nat := List.replicate size 0

/-- The log file as seen through `FileManager`: a list of block-sized pages.
`FileManager::write` seeks to `block_no * block_size` and writes the page;
writing at the current end extends the file, writing past it leaves
zero-filled holes. -/
def fmWrite (bs : Nat) (d : List (List Nat)) (i : Nat) (p : List Nat) :
    List (List Nat) :=
  if i < d.length then d.set i p
  else d ++ List.replicate (i - d.length) (zeroPage bs) ++ [p]

/-- Model of `FileManager::read` of block `i` (absent blocks read as zero; the claims
are settled on stores where every accessed block exists). -/
def diskRead (bs : Nat) (d : List (List Nat)) (i : Nat) : List Nat :=
  d.getD i (zeroPage bs)

/-- State of `LogManager` (`src/log/manager.rs`) together with the log file's
on-disk blocks. -/
structure LogState where
  disk : List (List Nat)
  logPage : List Nat
  currentBlock : Nat
  latestLsn : Nat
  latestSavedLsn : Nat
deriving DecidableEq

/-- Model of `LogManager::new` on a fresh database: append one block to the empty log
file, set the in-memory page's boundary to `block_size` and write the page
to that block. -/
def logInit (bs : Nat) : LogState :=
  let p := (setIntegerP (zeroPage bs) 0 (natToI32 bs)).2
  { disk := fmWrite bs (fmWrite bs [] 0 (zeroPage bs)) 0 p
    logPage := p
    currentBlock := 0
    latestLsn := 0
    latestSavedLsn := 0 }

/-- Model of `LogManager::flush_internal`: write the tail page to the current block
and record every assigned LSN as durable. -/
def flushInternalL (bs : Nat) (s : LogState) : LogState :=
  { s with
    disk := fmWrite bs s.disk s.currentBlock s.logPage
    latestSavedLsn := s.latestLsn }

/-- Model of `LogManager::flush`: flush unless `lsn` is strictly below the already
durable LSN. -/
def flushL (bs : Nat) (s : LogState) (lsn : Nat) : LogState :=
  if lsn ≥ s.latestSavedLsn then flushInternalL bs s else s

/-- Model of `LogManager::append_new_block`: `FileManager::append_block` writes a zero
block at the end of the file, then the tail page's boundary is reset to
`block_size` and the page is written to the new block. Returns the new block
number. -/
def appendNewBlockL (bs : Nat) (s : LogState) :
    Except PageError Nat × LogState :=
  let blkNo := s.disk.length
  let d1 := fmWrite bs s.disk blkNo (zeroPage bs)
  match setIntegerP s.logPage 0 (natToI32 bs) with
  | (.error e, p1) => (.error e, { s with disk := d1, logPage := p1 })
  | (.ok _, p1) =>
    (.ok blkNo, { s with disk := fmWrite bs d1 blkNo p1, logPage := p1 })

/-- Model of `LogManager::append`: read the boundary, roll over to a new block when
`boundary < 4 + (record.len() + 4)` (flushing the old tail first), then write
the length-prefixed record at `boundary - (record.len() + 4)`, move the
boundary there and hand out the next LSN. Page-codec failures surface as
errors (`?`), leaving whatever had already been mutated in place. -/
def appendL (bs : Nat) (s : LogState) (record : List Nat) :
    Except PageError Nat × LogState :=
  match getIntegerP s.logPage 0 with
  | .error e => (.error e, s)
  | .ok b0 =>
    let boundary : Nat := intToUsize b0
    let bytesNeeded : Nat := record.length + 4
    let step : Except PageError Nat × LogState :=
      if boundary < 4 + bytesNeeded then
        let s1 := flushInternalL bs s
        match appendNewBlockL bs s1 with
        | (.error e, s2) => (.error e, s2)
        | (.ok blk, s2) =>
          let s3 := { s2 with currentBlock := blk }
          match getIntegerP s3.logPage 0 with
          | .error e => (.error e, s3)
          | .ok b1 => (.ok (intToUsize b1), s3)
      else (.ok boundary, s)
    match step with
    | (.error e, s') => (.error e, s')
    | (.ok boundary', s') =>
      let recPos : Nat := boundary' - bytesNeeded
      match setBytesP s'.logPage recPos record with
      | (.error e, p1) => (.error e, { s' with logPage := p1 })
      | (.ok _, p1) =>
        match setIntegerP p1 0 (natToI32 recPos) with
        | (.error e, p2) => (.error e, { s' with logPage := p2 })
        | (.ok _, p2) =>
          (.ok (s'.latestLsn + 1),
            { s' with logPage := p2, latestLsn := s'.latestLsn + 1 })

/-- Running `LogManager::append` on each record in order, requiring every
append to succeed. -/
def appendAll (bs : Nat) (s : LogState) : List (List Nat) → Option LogState
  | [] => some s
  | r :: rest =>
    match appendL bs s r with
    | (.ok _, s') => appendAll bs s' rest
    | (.error _, _) => none

/-- State of `LogIterator` (`src/log/iterator.rs`). -/
structure IterState where
  blkNo : Nat
  page : List Nat
  pos : Nat
  boundary : Int
deriving DecidableEq

/-- The block-switch step inside `LogIterator::next`: load the previous
block (`block_no - 1`), read its boundary and position there; a failed
boundary read becomes `None` (`.ok()?`). -/
def iterSwitch (bs : Nat) (disk : List (List Nat)) (it : IterState) :
    Option IterState :=
  match getIntegerP (diskRead bs disk (it.blkNo - 1)) 0 with
  | .error _ => none
  | .ok b =>
    some { blkNo := it.blkNo - 1, page := diskRead bs disk (it.blkNo - 1),
           pos := intToUsize b, boundary := b }

/-- Model of `LogIterator::next`: terminal when positioned at/after `block_size` in
block 0; at exactly `block_size` in a later block, load the previous block and
restart at its boundary; then read the length-prefixed record at the current
position and advance past it. Every failing page/disk operation is converted
to `None` by `.ok()?`. -/
def iterNext (bs : Nat) (disk : List (List Nat)) (it : IterState) :
    Option (List Nat × IterState) :=
  if bs ≤ it.pos ∧ it.blkNo = 0 then none
  else
    match (if it.pos = bs then iterSwitch bs disk it else some it) with
    | none => none
    | some it1 =>
      match getBytesP it1.page it1.pos with
      | .error _ => none
      | .ok rec => some (rec, { it1 with pos := it1.pos + (4 + rec.length) })

lemma getBytesP_ok_le {p : List Nat} {off : Nat} {r : List Nat}
    (h : getBytesP p off = .ok r) : off + 4 + r.length ≤ p.length := by
  unfold getBytesP at h
  split at h
  · rename_i hb
    unfold getIntegerP at h
    rw [if_pos hb] at h
    dsimp only at h
    split at h
    · cases h
    · split at h
      · cases h
      · rename_i hlen
        simp only [Except.ok.injEq] at h
        subst h
        have hsl : (slice p (off + 4) (readBE4 p off).toNat).length =
            (readBE4 p off).toNat := by
          unfold slice
          simp only [List.length_take, List.length_drop]
          omega
        omega
  · cases h

lemma iterSwitch_blkNo {bs : Nat} {disk : List (List Nat)} {it it1 : IterState}
    (h : iterSwitch bs disk it = some it1) : it1.blkNo = it.blkNo - 1 := by
  unfold iterSwitch at h
  split at h
  · cases h
  · simp only [Option.some.injEq] at h
    rw [← h]

lemma iterNext_dec {bs : Nat} {disk : List (List Nat)} {it : IterState}
    {r : List Nat} {it' : IterState}
    (h : iterNext bs disk it = some (r, it')) :
    it'.blkNo < it.blkNo ∨
      (it'.blkNo = it.blkNo ∧ it'.page = it.page ∧ it.pos < it'.pos ∧
        it'.pos ≤ it.page.length) := by
  unfold iterNext at h
  split at h
  · cases h
  · rename_i hnot
    split at h
    · cases h
    · rename_i it1 hsome
      split at h
      · cases h
      · rename_i rec hget
        simp only [Option.some.injEq, Prod.mk.injEq] at h
        obtain ⟨hr, hit⟩ := h
        subst hr
        subst hit
        split at hsome
        · rename_i hpos
          left
          have h1 := iterSwitch_blkNo hsome
          simp only [h1]
          have hblk : it.blkNo ≠ 0 := fun h0 => hnot ⟨by omega, h0⟩
          omega
        · simp only [Option.some.injEq] at hsome
          subst hsome
          right
          refine ⟨rfl, rfl, by simp only; omega, ?_⟩
          have := getBytesP_ok_le hget
          simp only
          omega

/-- All records produced by repeatedly calling `LogIterator::next` until it
returns `None`. -/
def iterAll (bs : Nat) (disk : List (List Nat)) (it : IterState) :
    List (List Nat) :=
  match h : iterNext bs disk it with
  | none => []
  | some (rec, it') => rec :: iterAll bs disk it'
termination_by (it.blkNo, it.page.length - it.pos)
decreasing_by
  rcases iterNext_dec h with hl | ⟨h1, h2, h3, h4⟩
  · exact Prod.Lex.left _ _ hl
  · rw [h1, h2]
    exact Prod.Lex.right _ (by omega)

/-- Model of `LogManager::iter` followed by draining the iterator:
`LogIterator::new` reads the current tail block from disk and starts at its
boundary; a bad boundary integer is an error of `iter()` itself. -/
def logRecords (bs : Nat) (s : LogState) : Except PageError (List (List Nat)) :=
  let page := diskRead bs s.disk s.currentBlock
  match getIntegerP page 0 with
  | .error e => .error e
  | .ok b =>
    .ok (iterAll bs s.disk
      { blkNo := s.currentBlock, page := page, pos := intToUsize b,
        boundary := b })

/-- A data-file block identifier `(path, block_no)`; paths are numbered and
the write-ahead log file is kept separate (the log is only ever accessed
through `LogManager`). -/
def BId : Type := Nat × Nat
deriving DecidableEq

/-- One `FileManager::write` call, recorded in order of occurrence:
either the write of a log block performed by `LogManager::flush_internal`,
or the write of a buffer's data block performed by `Buffer::flush`. -/
inductive Ev where
  | logW (blk : Nat) : Ev
  | dataW (b : BId) : Ev
deriving DecidableEq

/-- The storage system as the buffer layer sees it: the log manager's state,
the data files, and the trace of disk writes performed so far. -/
structure Sys where
  log : LogState
  data : BId → List Nat
  trace : List Ev

/-- Model of `LogManager::flush_internal` as invoked from the buffer layer, with its
`FileManager::write` recorded on the trace. -/
def flushInternalT (bs : Nat) (sys : Sys) : Sys :=
  { sys with
    log := flushInternalL bs sys.log
    trace := sys.trace ++ [.logW sys.log.currentBlock] }

/-- Model of `LogManager::flush` as invoked from the buffer layer. -/
def flushT (bs : Nat) (sys : Sys) (lsn : Nat) : Sys :=
  if lsn ≥ sys.log.latestSavedLsn then flushInternalT bs sys else sys

/-- State of one pool slot, `Buffer` (`src/buffer/buffer.rs`). -/
structure BufState where
  page : List Nat
  blockId : Option BId
  pins : Nat
  txnum : Int
  lsn : Int
deriving DecidableEq

/-- Model of `Buffer::new`: zero page, no block, no pins, no transaction, no LSN. -/
def newBuffer (bs : Nat) : BufState :=
  { page := zeroPage bs, blockId := none, pins := 0, txnum := -1, lsn := -1 }

/-- Model of `Buffer::set_modified`: record the transaction, update the LSN only when
non-negative. -/
def setModified (b : BufState) (txnum lsn : Int) : BufState :=
  { b with txnum := txnum, lsn := if lsn ≥ 0 then lsn else b.lsn }

/-- Model of `Buffer::pin`. -/
def pinB (b : BufState) : BufState := { b with pins := b.pins + 1 }

/-- Model of `Buffer::unpin`: floored at zero. -/
def unpinB (b : BufState) : BufState :=
  if b.pins > 0 then { b with pins := b.pins - 1 } else b

/-- Model of `Buffer::flush`: a no-op for a clean buffer (`txnum < 0`); for a dirty
buffer, first `LogManager::flush(self.lsn as usize)`, then
`FileManager::write(self.block_id.unwrap(), page)`. The `unwrap` of an
absent block id is a panic, modelled as `none`. -/
def bufferFlush (bs : Nat) (sys : Sys) (b : BufState) :
    Option (Sys × BufState) :=
  if 0 ≤ b.txnum then
    let sys1 := flushT bs sys (intToUsize b.lsn)
    match b.blockId with
    | none => none
    | some bid =>
      some ({ sys1 with
              data := fun x => if x = bid then b.page else sys1.data x
              trace := sys1.trace ++ [.dataW bid] }, b)
  else some (sys, b)

/-- Model of `Buffer::assign_to_block`: flush the current content, rebind, reload the
block's bytes from disk, reset the pin count. -/
def assignToBlock (bs : Nat) (sys : Sys) (b : BufState) (bid : BId) :
    Option (Sys × BufState) :=
  match bufferFlush bs sys b with
  | none => none
  | some (sys1, b1) =>
    some (sys1, { b1 with blockId := some bid, page := sys1.data bid,
                          pins := 0 })

/-- State of `BufferManager` (`src/buffer/manager.rs`): the pool and the
free-slot counter. -/
structure Mgr where
  pool : List BufState
  available : Nat
deriving DecidableEq

/-- Model of `BufferManager::new`: a pool of fresh buffers, all counted available. -/
def mgrInit (bs n : Nat) : Mgr :=
  { pool := List.replicate n (newBuffer bs), available := n }

/-- Model of `BufferManager::unpin` on the pool slot at index `i`: decrement the
buffer's pin count (floored), and increment `available` whenever the buffer
ends up unpinned. -/
def unpinMgr (m : Mgr) (i : Nat) : Mgr :=
  let b' := unpinB (m.pool.getD i (newBuffer 0))
  { pool := m.pool.set i b'
    available := if b'.pins = 0 then m.available + 1 else m.available }

/-- Model of `BufferManager::find_existing_buffer`: index of the first pool slot bound
to `bid`. -/
def findExisting (m : Mgr) (bid : BId) : Option Nat :=
  m.pool.findIdx? (fun b => b.blockId = some bid)

/-- Model of `BufferManager::choose_unpinned_buffer`: index of the first unpinned pool
slot. -/
def chooseUnpinned (m : Mgr) : Option Nat :=
  m.pool.findIdx? (fun b => b.pins = 0)

/-- Model of `BufferManager::try_to_pin`: `none` models a panic inside the attempt,
`some (.error ())` the "no available buffers" failure (no state change at the
caller), `some (.ok _)` a successful pin. -/
def tryToPin (bs : Nat) (sys : Sys) (m : Mgr) (bid : BId) :
    Option (Except Unit (Sys × Mgr)) :=
  match findExisting m bid with
  | some i =>
    let b := m.pool.getD i (newBuffer 0)
    let avail' := if b.pins = 0 then m.available - 1 else m.available
    some (.ok (sys, { pool := m.pool.set i (pinB b), available := avail' }))
  | none =>
    match chooseUnpinned m with
    | some i =>
      let b := m.pool.getD i (newBuffer 0)
      match assignToBlock bs sys b bid with
      | none => none
      | some (sys1, b1) =>
        some (.ok (sys1,
          { pool := m.pool.set i (pinB b1), available := m.available - 1 }))
    | none => some (.error ())

/-- Model of `BufferManager::flush_all`: flush every pool slot whose modifying
transaction is `txn`, in pool order. -/
def flushAllM (bs : Nat) (sys : Sys) (m : Mgr) (txn : Int) :
    Option (Sys × Mgr) :=
  let rec go (sys : Sys) (acc : List BufState) :
      List BufState → Option (Sys × List BufState)
    | [] => some (sys, acc)
    | b :: rest =>
      if b.txnum = txn then
        match bufferFlush bs sys b with
        | none => none
        | some (sys1, b1) => go sys1 (acc ++ [b1]) rest
      else go sys (acc ++ [b]) rest
  match go sys [] m.pool with
  | none => none
  | some (sys', pool') => some (sys', { m with pool := pool' })

/-- One `BufferManager` call at the public interface. `pin` is the retry
loop around `try_to_pin`: a successful attempt commits its effect; being
rejected until the deadline leaves the state untouched and returns the
timeout error. -/
inductive MOp where
  | pin (bid : BId) : MOp
  | unpin (i : Nat) : MOp
  | flushAll (txn : Int) : MOp

/-- Effect of one `BufferManager` call on the system and pool state
(`none` models a panic). -/
def mgrStep (bs : Nat) (s : Sys × Mgr) : MOp → Option (Sys × Mgr)
  | .pin bid =>
    match tryToPin bs s.1 s.2 bid with
    | none => none
    | some (.error _) => some s
    | some (.ok s') => some s'
  | .unpin i => some (s.1, unpinMgr s.2 i)
  | .flushAll txn => flushAllM bs s.1 s.2 txn

/-- A sequence of `BufferManager` calls, stopping at a panic. -/
def mgrRun (bs : Nat) (s : Sys × Mgr) : List MOp → Option (Sys × Mgr)
  | [] => some s
  | op :: rest =>
    match mgrStep bs s op with
    | none => none
    | some s' => mgrRun bs s' rest

/-- The initial system paired with a fresh pool of `n` buffers. -/
def sysInit (bs : Nat) : Sys :=
  { log := logInit bs, data := fun _ => zeroPage bs, trace := [] }

/-- Number of pool slots with pin count zero. -/
def countUnpinned (pool : List BufState) : Nat :=
  pool.countP (fun b => b.pins = 0)

/-- An `unpin` call is only admissible on an existing, currently pinned pool
slot (the amended accounting claim quantifies over such call sequences). -/
def okOp (m : Mgr) : MOp → Bool
  | .unpin i => i < m.pool.length ∧ 0 < (m.pool.getD i (newBuffer 0)).pins
  | _ => true

/-- A call sequence is admissible when each call is admissible in the state
it runs in and no call panics. -/
def okRun (bs : Nat) (s : Sys × Mgr) : List MOp → Bool
  | [] => true
  | op :: rest =>
    okOp s.2 op &&
      match mgrStep bs s op with
      | none => false
      | some s' => okRun bs s' rest

/-- Packed size of a record in a log block: 4-byte length prefix plus the
payload. -/
def recSize (r : List Nat) : Nat := r.length + 4

/-- Total packed size of a list of records. -/
def sizeSum (rs : List (List Nat)) : Nat := (rs.map recSize).sum

/-- On-block encoding of one record: big-endian length prefix then payload. -/
def encodeRec (r : List Nat) : List Nat := i32ToBytes (natToI32 r.length) ++ r

/-- Byte image of records packed left to right (used with the newest record
first, the physical layout between a block's boundary and its end). -/
def packRecs (rs : List (List Nat)) : List Nat := (rs.map encodeRec).flatten

/-- How the records of one append run are distributed over log blocks,
newest block first: a record is added to the current tail group exactly when
`boundary ≥ 8 + record length` there, i.e. `sizeSum g + 8 + len ≤ block_size`;
otherwise it starts a new group. -/
def addRecG (bs : Nat) (gs : List (List (List Nat))) (r : List Nat) :
    List (List (List Nat)) :=
  match gs with
  | g :: rest =>
    if sizeSum g + 8 + r.length ≤ bs then (g ++ [r]) :: rest
    else [r] :: g :: rest
  | [] => [[r]]

/-- Grouping of an append sequence into per-block groups, newest first. -/
def grsRevOf (bs : Nat) (recs : List (List Nat)) : List (List (List Nat)) :=
  recs.foldl (addRecG bs) [[]]

/-- A page holds the group `g` of records (oldest first within `g`): correct
length, boundary integer `bs - sizeSum g`, the packed records (newest
leftmost) from the boundary to the end of the block, and all records small
enough to fit a block. -/
def blockRepr (bs : Nat) (p : List Nat) (g : List (List Nat)) : Prop :=
  p.length = bs ∧
  getIntegerP p 0 = .ok ((bs - sizeSum g : Nat) : Int) ∧
  sizeSum g + 4 ≤ bs ∧
  slice p (bs - sizeSum g) (sizeSum g) = packRecs g.reverse ∧
  ∀ r ∈ g, r.length + 8 ≤ bs

/-- Invariant tying a `LogState` to the records appended so far: the groups
(newest first) are laid out over the tail page and the on-disk blocks, every
non-tail group is sealed on disk and non-empty, and the LSN counters track
the append count. -/
def LogInv (bs : Nat) (recs : List (List Nat)) (s : LogState) : Prop :=
  let gs := grsRevOf bs recs
  s.disk.length = gs.length ∧
  s.currentBlock + 1 = gs.length ∧
  blockRepr bs s.logPage (gs.headD []) ∧
  (∀ j, 1 ≤ j → j < gs.length →
    blockRepr bs (diskRead bs s.disk (s.currentBlock - j)) (gs.getD j []) ∧
      gs.getD j [] ≠ []) ∧
  s.latestLsn = recs.length ∧
  s.latestSavedLsn ≤ recs.length ∧
  (∀ q ∈ s.disk, q.length = bs)

/-- A `LogManager` call at its public interface. -/
inductive LogOp where
  | append (r : List Nat) : LogOp
  | flush (lsn : Nat) : LogOp

/-- Effect of one `LogManager` call on the state; a call that returns an
error leaves exactly the mutations it had already performed, as in the
source. -/
def stepLog (bs : Nat) (s : LogState) : LogOp → LogState
  | .append r => (appendL bs s r).2
  | .flush lsn => flushL bs s lsn

/-! ### Byte-level lemmas about pages -/

lemma length_writeAt {p b : List Nat} {off : Nat}
    (h : off + b.length ≤ p.length) : (writeAt p off b).length = p.length := by
  unfold writeAt
  simp only [List.length_append, List.length_take, List.length_drop]
  omega

lemma getElem?_writeAt_lt {p b : List Nat} {off i : Nat}
    (hle : off + b.length ≤ p.length) (h : i < off) :
    (writeAt p off b)[i]? = p[i]? := by
  unfold writeAt
  have ht : (p.take off).length = off := List.length_take_of_le (by omega)
  rw [List.getElem?_append_left (by rw [List.length_append, ht]; omega),
    List.getElem?_append_left (by rw [ht]; omega),
    List.getElem?_take, if_pos h]

lemma getElem?_writeAt_mid {p b : List Nat} {off i : Nat}
    (hle : off + b.length ≤ p.length) (h1 : off ≤ i) (h2 : i < off + b.length) :
    (writeAt p off b)[i]? = b[i - off]? := by
  unfold writeAt
  have ht : (p.take off).length = off := List.length_take_of_le (by omega)
  rw [List.getElem?_append_left (by rw [List.length_append, ht]; omega),
    List.getElem?_append_right (by rw [ht]; omega), ht]

lemma getElem?_writeAt_ge {p b : List Nat} {off i : Nat}
    (hle : off + b.length ≤ p.length) (h : off + b.length ≤ i) :
    (writeAt p off b)[i]? = p[i]? := by
  unfold writeAt
  have ht : (p.take off).length = off := List.length_take_of_le (by omega)
  rw [List.getElem?_append_right (by rw [List.length_append, ht]; omega),
    List.length_append, ht, List.getElem?_drop]
  congr 1
  omega

lemma getD_writeAt_lt {p b : List Nat} {off i : Nat}
    (hle : off + b.length ≤ p.length) (h : i < off) :
    (writeAt p off b).getD i 0 = p.getD i 0 := by
  simp only [List.getD_eq_getElem?_getD, getElem?_writeAt_lt hle h]

lemma getD_writeAt_mid {p b : List Nat} {off i : Nat}
    (hle : off + b.length ≤ p.length) (h1 : off ≤ i) (h2 : i < off + b.length) :
    (writeAt p off b).getD i 0 = b.getD (i - off) 0 := by
  simp only [List.getD_eq_getElem?_getD, getElem?_writeAt_mid hle h1 h2]

lemma getD_writeAt_ge {p b : List Nat} {off i : Nat}
    (hle : off + b.length ≤ p.length) (h : off + b.length ≤ i) :
    (writeAt p off b).getD i 0 = p.getD i 0 := by
  simp only [List.getD_eq_getElem?_getD, getElem?_writeAt_ge hle h]

lemma length_slice_of_le {p : List Nat} {a n : Nat} (h : a + n ≤ p.length) :
    (slice p a n).length = n := by
  unfold slice
  simp only [List.length_take, List.length_drop]
  omega

lemma getElem?_slice {p : List Nat} {a n k : Nat} (h : k < n) :
    (slice p a n)[k]? = p[a + k]? := by
  unfold slice
  rw [List.getElem?_take, if_pos h, List.getElem?_drop]

lemma getD_slice {p : List Nat} {a n k : Nat} (h : k < n) :
    (slice p a n).getD k 0 = p.getD (a + k) 0 := by
  simp only [List.getD_eq_getElem?_getD, getElem?_slice h]

lemma getD_append_left {α : Type} {l1 l2 : List α} {i : Nat} {d : α}
    (h : i < l1.length) : (l1 ++ l2).getD i d = l1.getD i d := by
  simp only [List.getD_eq_getElem?_getD, List.getElem?_append_left h]

lemma getD_append_right {α : Type} {l1 l2 : List α} {i : Nat} {d : α}
    (h : l1.length ≤ i) : (l1 ++ l2).getD i d = l2.getD (i - l1.length) d := by
  simp only [List.getD_eq_getElem?_getD, List.getElem?_append_right h]

lemma getD_set_self {α : Type} {l : List α} {i : Nat} {v d : α}
    (h : i < l.length) : (l.set i v).getD i d = v := by
  simp [List.getD_eq_getElem?_getD, List.getElem?_set, h]

lemma getD_set_ne {α : Type} {l : List α} {i j : Nat} {v d : α}
    (h : i ≠ j) : (l.set i v).getD j d = l.getD j d := by
  simp [List.getD_eq_getElem?_getD, List.getElem?_set_ne h]

lemma ext_of_getD {l1 l2 : List Nat} (hl : l1.length = l2.length)
    (h : ∀ i, i < l1.length → l1.getD i 0 = l2.getD i 0) : l1 = l2 := by
  apply List.ext_getElem?
  intro i
  by_cases hi : i < l1.length
  · have h1 := List.getElem?_eq_getElem hi
    have h2 := List.getElem?_eq_getElem (hl ▸ hi)
    rw [h1, h2]
    have := h i hi
    simp only [List.getD_eq_getElem?_getD, h1, h2, Option.getD_some] at this
    rw [this]
  · rw [List.getElem?_eq_none (by omega), List.getElem?_eq_none (by omega)]

/-! ### Lemmas about the 32-bit big-endian codec -/

lemma natToI32_small {n : Nat} (h : n < 2 ^ 31) : natToI32 n = (n : Int) := by
  unfold natToI32
  have hm : n % 2 ^ 32 = n := Nat.mod_eq_of_lt (by omega)
  simp only [hm]
  rw [if_pos h]

lemma i32ToBytes_length (v : Int) : (i32ToBytes v).length = 4 := rfl

lemma i32ToBytes_nat {L : Nat} (h : L < 2 ^ 31) :
    i32ToBytes (natToI32 L) =
      [L / 2 ^ 24 % 2 ^ 8, L / 2 ^ 16 % 2 ^ 8, L / 2 ^ 8 % 2 ^ 8, L % 2 ^ 8] := by
  rw [natToI32_small h]
  unfold i32ToBytes
  have h32 : ((L : Int) % 2 ^ 32).toNat = L := by omega
  simp only [h32]

lemma readBE4_decode {p : List Nat} {off L : Nat} (h : L < 2 ^ 31)
    (h0 : p.getD off 0 = L / 2 ^ 24 % 2 ^ 8)
    (h1 : p.getD (off + 1) 0 = L / 2 ^ 16 % 2 ^ 8)
    (h2 : p.getD (off + 2) 0 = L / 2 ^ 8 % 2 ^ 8)
    (h3 : p.getD (off + 3) 0 = L % 2 ^ 8) :
    readBE4 p off = (L : Int) := by
  unfold readBE4
  rw [h0, h1, h2, h3]
  have hrec : L / 2 ^ 24 % 2 ^ 8 * 2 ^ 24 + L / 2 ^ 16 % 2 ^ 8 * 2 ^ 16 +
      L / 2 ^ 8 % 2 ^ 8 * 2 ^ 8 + L % 2 ^ 8 = L := by omega
  simp only [hrec]
  rw [if_pos h]

/-- Writing the encoded integer `L < 2^31` and reading it back. -/
lemma readBE4_writeAt_nat {p : List Nat} {off L : Nat} (hL : L < 2 ^ 31)
    (hle : off + 4 ≤ p.length) :
    readBE4 (writeAt p off (i32ToBytes (natToI32 L))) off = (L : Int) := by
  have hlen : (i32ToBytes (natToI32 L)).length = 4 := i32ToBytes_length _
  have hb := i32ToBytes_nat hL
  refine readBE4_decode hL ?_ ?_ ?_ ?_ <;>
    rw [getD_writeAt_mid (by omega) (by omega) (by omega), hb] <;>
    simp

/-! ### Lemmas about packed record regions -/

lemma encodeRec_length (r : List Nat) : (encodeRec r).length = 4 + r.length := by
  unfold encodeRec
  rw [List.length_append, i32ToBytes_length]

lemma sizeSum_nil : sizeSum [] = 0 := rfl

lemma sizeSum_cons (r : List Nat) (rs : List (List Nat)) :
    sizeSum (r :: rs) = (4 + r.length) + sizeSum rs := by
  unfold sizeSum recSize
  simp only [List.map_cons, List.sum_cons]
  omega

lemma sizeSum_append (rs1 rs2 : List (List Nat)) :
    sizeSum (rs1 ++ rs2) = sizeSum rs1 + sizeSum rs2 := by
  unfold sizeSum
  rw [List.map_append, List.sum_append]

lemma sizeSum_pos {r : List Nat} {rs : List (List Nat)} (h : r ∈ rs) :
    0 < sizeSum rs := by
  induction rs with
  | nil => cases h
  | cons a as ih =>
    rw [sizeSum_cons]
    omega

lemma packRecs_nil : packRecs [] = [] := rfl

lemma packRecs_cons (r : List Nat) (rs : List (List Nat)) :
    packRecs (r :: rs) = encodeRec r ++ packRecs rs := by
  unfold packRecs
  simp [List.map_cons]

lemma packRecs_length (rs : List (List Nat)) :
    (packRecs rs).length = sizeSum rs := by
  induction rs with
  | nil => rfl
  | cons r rs ih =>
    rw [packRecs_cons, List.length_append, encodeRec_length, ih, sizeSum_cons]

/-- Reading the head record out of a packed region: the record comes back
exactly, and the remaining region is the packed tail. -/
lemma region_head {p r : List Nat} {rs' : List (List Nat)} {pos : Nat}
    (hwf : r.length < 2 ^ 31)
    (hle : pos + sizeSum (r :: rs') ≤ p.length)
    (hsl : slice p pos (sizeSum (r :: rs')) = packRecs (r :: rs')) :
    getBytesP p pos = .ok r ∧
      slice p (pos + (4 + r.length)) (sizeSum rs') = packRecs rs' := by
  have hsz : sizeSum (r :: rs') = (4 + r.length) + sizeSum rs' := sizeSum_cons r rs'
  have henc : (encodeRec r).length = 4 + r.length := encodeRec_length r
  have hpt : ∀ k, k < sizeSum (r :: rs') →
      p.getD (pos + k) 0 = (packRecs (r :: rs')).getD k 0 := by
    intro k hk
    rw [← hsl, getD_slice hk]
  have hpack : packRecs (r :: rs') = encodeRec r ++ packRecs rs' :=
    packRecs_cons r rs'
  have hbytes := i32ToBytes_nat hwf
  -- the four header bytes
  have hhdr : ∀ k, k < 4 →
      p.getD (pos + k) 0 = (i32ToBytes (natToI32 r.length)).getD k 0 := by
    intro k hk
    rw [hpt k (by omega), hpack, getD_append_left (by omega)]
    unfold encodeRec
    rw [getD_append_left (by rw [i32ToBytes_length]; omega)]
  have hread : readBE4 p pos = (r.length : Int) := by
    refine readBE4_decode hwf ?_ ?_ ?_ ?_
    · rw [show pos = pos + 0 by omega, hhdr 0 (by omega), hbytes]; rfl
    · rw [hhdr 1 (by omega), hbytes]; rfl
    · rw [hhdr 2 (by omega), hbytes]; rfl
    · rw [hhdr 3 (by omega), hbytes]; rfl
  -- the payload bytes
  have hpay : ∀ k, k < r.length → p.getD (pos + 4 + k) 0 = r.getD k 0 := by
    intro k hk
    have : pos + 4 + k = pos + (4 + k) := by omega
    rw [this, hpt (4 + k) (by omega), hpack, getD_append_left (by omega)]
    unfold encodeRec
    rw [getD_append_right (by rw [i32ToBytes_length]; omega),
      i32ToBytes_length]
    congr 1
    omega
  have hget : getBytesP p pos = .ok r := by
    unfold getBytesP
    rw [if_pos (by omega)]
    unfold getIntegerP
    rw [if_pos (by omega)]
    dsimp only
    rw [hread]
    rw [if_neg (by omega), if_neg (by simp only [Int.toNat_ofNat]; omega)]
    congr 1
    apply ext_of_getD
    · rw [length_slice_of_le (by simp only [Int.toNat_ofNat]; omega)]
      simp
    · intro i hi
      rw [length_slice_of_le (by simp only [Int.toNat_ofNat]; omega)] at hi
      simp only [Int.toNat_ofNat] at hi ⊢
      rw [getD_slice hi]
      exact hpay i hi
  refine ⟨hget, ?_⟩
  apply ext_of_getD
  · rw [length_slice_of_le (by omega), packRecs_length]
  · intro i hi
    rw [length_slice_of_le (by omega)] at hi
    rw [getD_slice hi]
    have : pos + (4 + r.length) + i = pos + (4 + r.length + i) := by omega
    rw [this, hpt (4 + r.length + i) (by omega), hpack,
      getD_append_right (by omega)]
    congr 1
    omega

/-! ### Lemmas about the log iterator -/

lemma iterAll_none {bs : Nat} {disk : List (List Nat)} {it : IterState}
    (h : iterNext bs disk it = none) : iterAll bs disk it = [] := by
  rw [iterAll.eq_def, h]

lemma iterAll_some {bs : Nat} {disk : List (List Nat)} {it it' : IterState}
    {r : List Nat} (h : iterNext bs disk it = some (r, it')) :
    iterAll bs disk it = r :: iterAll bs disk it' := by
  rw [iterAll.eq_def, h]

lemma intToUsize_ofNat {n : Nat} (h : n < 2 ^ 64) :
    intToUsize (n : Int) = n := by
  unfold intToUsize
  omega

lemma sizeSum_reverse (rs : List (List Nat)) :
    sizeSum rs.reverse = sizeSum rs := by
  unfold sizeSum
  rw [List.map_reverse, List.sum_reverse]

/-- Draining the iterator inside one block: while the position is strictly
below `block_size` and the bytes up to `block_size` are a packed record
region, the iterator yields exactly those records and arrives at
`pos = block_size`. -/
lemma iter_run {bs : Nat} (disk : List (List Nat)) (rs : List (List Nat)) :
    ∀ (p : List Nat) (i pos : Nat) (bd : Int),
    p.length = bs →
    pos + sizeSum rs = bs →
    slice p pos (sizeSum rs) = packRecs rs →
    (∀ r ∈ rs, r.length + 8 ≤ bs) →
    bs < 2 ^ 31 →
    iterAll bs disk ⟨i, p, pos, bd⟩ = rs ++ iterAll bs disk ⟨i, p, bs, bd⟩ := by
  induction rs with
  | nil =>
    intro p i pos bd _ hpos _ _ _
    rw [sizeSum_nil] at hpos
    have : pos = bs := by omega
    subst this
    simp
  | cons r rs' ih =>
    intro p i pos bd hplen hpos hsl hwf hbs
    have hszc : sizeSum (r :: rs') = (4 + r.length) + sizeSum rs' :=
      sizeSum_cons r rs'
    have hrwf : r.length < 2 ^ 31 := by
      have := hwf r (by simp)
      omega
    obtain ⟨hget, hrest⟩ := region_head hrwf (by omega) hsl
    have hnext : iterNext bs disk ⟨i, p, pos, bd⟩ =
        some (r, ⟨i, p, pos + (4 + r.length), bd⟩) := by
      unfold iterNext
      rw [if_neg (by simp only; omega)]
      rw [if_neg (by simp only; omega)]
      simp only [hget]
    rw [iterAll_some hnext,
      ih p i (pos + (4 + r.length)) bd hplen (by omega) hrest
        (fun r' hr' => hwf r' (by simp [hr'])) hbs]
    simp

/-- Fusing the block switch: at `pos = block_size` with a previous block
available whose boundary is a proper position, `next` behaves exactly as if
the iterator were already positioned at that boundary in the previous
block. -/
lemma iterAll_switch (bs : Nat) (disk : List (List Nat)) (i : Nat)
    (p : List Nat) (bd b : Int) (pos2 : Nat)
    (hb : getIntegerP (diskRead bs disk i) 0 = .ok b)
    (hb' : intToUsize b = pos2)
    (hlt : pos2 < bs) :
    iterAll bs disk ⟨i + 1, p, bs, bd⟩ =
      iterAll bs disk ⟨i, diskRead bs disk i, pos2, b⟩ := by
  have e1 : ¬(bs ≤ (⟨i + 1, p, bs, bd⟩ : IterState).pos ∧
      (⟨i + 1, p, bs, bd⟩ : IterState).blkNo = 0) := by
    dsimp only
    omega
  have e2 : ¬(bs ≤ (⟨i, diskRead bs disk i, pos2, b⟩ : IterState).pos ∧
      (⟨i, diskRead bs disk i, pos2, b⟩ : IterState).blkNo = 0) := by
    dsimp only
    omega
  have e3 : ¬((⟨i, diskRead bs disk i, pos2, b⟩ : IterState).pos = bs) := by
    dsimp only
    omega
  have hsw : iterSwitch bs disk ⟨i + 1, p, bs, bd⟩ =
      some ⟨i, diskRead bs disk i, pos2, b⟩ := by
    unfold iterSwitch
    dsimp only
    rw [show i + 1 - 1 = i by omega, hb]
    dsimp only
    rw [hb']
  have hnext : iterNext bs disk ⟨i + 1, p, bs, bd⟩ =
      iterNext bs disk ⟨i, diskRead bs disk i, pos2, b⟩ := by
    unfold iterNext
    rw [if_neg e1, if_neg e2, if_neg e3,
      if_pos (show (⟨i + 1, p, bs, bd⟩ : IterState).pos = bs from rfl), hsw]
  match hcase : iterNext bs disk ⟨i, diskRead bs disk i, pos2, b⟩ with
  | none =>
    rw [iterAll_none (hnext.trans hcase), iterAll_none hcase]
  | some (r, it') =>
    rw [iterAll_some (hnext.trans hcase), iterAll_some hcase]

lemma sizeSum_ne_nil_pos {g : List (List Nat)} (h : g ≠ []) :
    0 < sizeSum g := by
  match g, h with
  | r :: rest, _ => rw [sizeSum_cons]; omega

/-- Draining the iterator over a sequence of represented blocks: each group
is yielded newest-record-first, newest block first. -/
lemma iter_blocks {bs : Nat} (hbs : bs < 2 ^ 31) :
    ∀ (gs : List (List (List Nat))) (disk : List (List Nat)) (bd : Int),
    gs ≠ [] →
    (∀ j, j < gs.length →
      blockRepr bs (diskRead bs disk (gs.length - 1 - j)) (gs.getD j [])) →
    (∀ j, 1 ≤ j → j < gs.length → gs.getD j [] ≠ []) →
    iterAll bs disk
      ⟨gs.length - 1, diskRead bs disk (gs.length - 1),
        bs - sizeSum (gs.headD []), bd⟩ =
      (gs.map List.reverse).flatten := by
  intro gs
  induction gs with
  | nil => intro _ _ h; exact absurd rfl h
  | cons g gs' ih =>
    intro disk bd _ hrepr hne
    have hA : blockRepr bs (diskRead bs disk gs'.length) g := by
      have := hrepr 0 (by simp)
      simpa using this
    obtain ⟨hplen, hbdry, hfit, hregion, hwf⟩ := hA
    simp only [List.length_cons, Nat.add_sub_cancel, List.headD_cons,
      List.map_cons, List.flatten_cons]
    have hrun := iter_run disk g.reverse
      (diskRead bs disk gs'.length) gs'.length (bs - sizeSum g) bd
      hplen (by rw [sizeSum_reverse]; omega)
      (by rw [sizeSum_reverse]; exact hregion)
      (fun r hr => hwf r (List.mem_reverse.mp hr)) hbs
    rw [hrun]
    refine congrArg (g.reverse ++ ·) ?_
    match gs' with
    | [] =>
      have hend : iterNext bs disk
          ⟨0, diskRead bs disk 0, bs, bd⟩ = none := by
        unfold iterNext
        rw [if_pos
          (show bs ≤ (⟨0, diskRead bs disk 0, bs, bd⟩ : IterState).pos ∧
            (⟨0, diskRead bs disk 0, bs, bd⟩ : IterState).blkNo = 0 from
            ⟨Nat.le_refl bs, rfl⟩)]
      simp only [List.length_nil]
      rw [iterAll_none hend]
      simp
    | g' :: gs'' =>
      -- switch into the previous block, whose head group is non-empty
      have hg'ne : g' ≠ [] := by
        have := hne 1 (by omega) (by simp)
        simpa using this
      have hB : blockRepr bs (diskRead bs disk gs''.length) g' := by
        have := hrepr 1 (by simp)
        have hidx : (g :: g' :: gs'').length - 1 - 1 = gs''.length := by
          simp only [List.length_cons]
          omega
        rw [hidx] at this
        simpa using this
      obtain ⟨hplen', hbdry', hfit', hregion', hwf'⟩ := hB
      have hszpos : 0 < sizeSum g' := sizeSum_ne_nil_pos hg'ne
      have hswitch := iterAll_switch bs disk gs''.length
        (diskRead bs disk (gs''.length + 1))
        bd ((bs - sizeSum g' : Nat) : Int)
        (bs - sizeSum g')
        hbdry'
        (intToUsize_ofNat (by omega))
        (by omega)
      have hIH := ih disk ((bs - sizeSum g' : Nat) : Int) (by simp)
        (fun j hj => by
          have hj' : j + 1 < (g :: g' :: gs'').length := by
            simp only [List.length_cons] at hj ⊢
            omega
          have := hrepr (j + 1) hj'
          have hidx : (g :: g' :: gs'').length - 1 - (j + 1) =
              (g' :: gs'').length - 1 - j := by
            simp only [List.length_cons]
            omega
          rw [hidx] at this
          simpa using this)
        (fun j h1 hj => by
          have hj' : j + 1 < (g :: g' :: gs'').length := by
            simp only [List.length_cons] at hj ⊢
            omega
          have := hne (j + 1) (by omega) hj'
          simpa using this)
      simp only [List.length_cons, Nat.add_sub_cancel, List.headD_cons] at hIH
      simp only [List.length_cons]
      rw [hswitch, hIH]

/-! ### Lemmas about the grouping of appended records into blocks -/

lemma addRecG_ne_nil (bs : Nat) (gs : List (List (List Nat))) (r : List Nat) :
    addRecG bs gs r ≠ [] := by
  unfold addRecG
  match gs with
  | [] => simp
  | g :: rest =>
    dsimp only
    split <;> simp

lemma grsRevOf_ne_nil (bs : Nat) (recs : List (List Nat)) :
    grsRevOf bs recs ≠ [] := by
  unfold grsRevOf
  induction recs using List.reverseRecOn with
  | nil => simp [List.foldl]
  | append_singleton recs r _ =>
    rw [List.foldl_append]
    exact addRecG_ne_nil bs _ r

lemma grsRevOf_append (bs : Nat) (recs : List (List Nat)) (r : List Nat) :
    grsRevOf bs (recs ++ [r]) = addRecG bs (grsRevOf bs recs) r := by
  unfold grsRevOf
  rw [List.foldl_append]
  rfl

lemma addRecG_flatten (bs : Nat) (gs : List (List (List Nat))) (r : List Nat) :
    ((addRecG bs gs r).map List.reverse).flatten =
      r :: (gs.map List.reverse).flatten := by
  unfold addRecG
  match gs with
  | [] => simp
  | g :: rest =>
    dsimp only
    split
    · simp
    · simp

lemma grsRevOf_flatten (bs : Nat) (recs : List (List Nat)) :
    ((grsRevOf bs recs).map List.reverse).flatten = recs.reverse := by
  induction recs using List.reverseRecOn with
  | nil => simp [grsRevOf, List.foldl]
  | append_singleton recs r ih =>
    rw [grsRevOf_append, addRecG_flatten, ih]
    simp

/-! ### Writing one record into a represented block -/

/-- A freshly reset page (boundary `block_size`, no records). -/
lemma blockRepr_empty {bs : Nat} {p : List Nat} (h4 : 4 ≤ bs)
    (hlen : p.length = bs) (hb : getIntegerP p 0 = .ok (bs : Int)) :
    blockRepr bs p [] := by
  refine ⟨hlen, ?_, by rw [sizeSum_nil]; omega, ?_, by simp⟩
  · rw [sizeSum_nil, Nat.sub_zero]
    exact hb
  · rw [sizeSum_nil, Nat.sub_zero]
    unfold slice packRecs
    simp

/-- Appending one record that fits into a represented block: both page writes
of `LogManager::append` succeed and the result represents the extended
group. -/
lemma write_record_into_repr {bs : Nat} {p r : List Nat}
    {g : List (List Nat)}
    (hbs : bs < 2 ^ 31)
    (hrepr : blockRepr bs p g)
    (hfits : sizeSum g + 8 + r.length ≤ bs) :
    ∃ p2 p3,
      setBytesP p (bs - sizeSum g - (4 + r.length)) r = (.ok (), p2) ∧
      setIntegerP p2 0 (natToI32 (bs - sizeSum g - (4 + r.length))) =
        (.ok (), p3) ∧
      blockRepr bs p3 (g ++ [r]) ∧ p3.length = bs := by
  obtain ⟨hplen, hbdry, hfit, hregion, hwf⟩ := hrepr
  set recPos := bs - sizeSum g - (4 + r.length) with hrecPos
  have hszApp : sizeSum (g ++ [r]) = sizeSum g + (4 + r.length) := by
    rw [sizeSum_append, sizeSum_cons, sizeSum_nil]
    omega
  have hrp : recPos = bs - sizeSum (g ++ [r]) := by omega
  have hrp4 : 4 ≤ recPos := by omega
  have hrpbs : recPos + (4 + r.length) = bs - sizeSum g := by omega
  -- the length-prefix write inside set_bytes
  have hlen1 : (i32ToBytes (natToI32 r.length)).length = 4 :=
    i32ToBytes_length _
  have hset1 : setIntegerP p recPos (natToI32 r.length) =
      (.ok (), writeAt p recPos (i32ToBytes (natToI32 r.length))) := by
    unfold setIntegerP
    rw [if_pos (by omega)]
  set p1 := writeAt p recPos (i32ToBytes (natToI32 r.length)) with hp1
  have hp1len : p1.length = bs := by
    rw [hp1, length_writeAt (by rw [hlen1]; omega), hplen]
  have hset2 : setBytesP p recPos r = (.ok (), writeAt p1 (recPos + 4) r) := by
    unfold setBytesP
    rw [if_pos (by omega), if_neg (by omega)]
    rw [hset1]
  set p2 := writeAt p1 (recPos + 4) r with hp2
  have hp2len : p2.length = bs := by
    rw [hp2, length_writeAt (by omega), hp1len]
  have hset3 : setIntegerP p2 0 (natToI32 recPos) =
      (.ok (), writeAt p2 0 (i32ToBytes (natToI32 recPos))) := by
    unfold setIntegerP
    rw [if_pos (by omega)]
  set p3 := writeAt p2 0 (i32ToBytes (natToI32 recPos)) with hp3
  have hhdrlen : (i32ToBytes (natToI32 recPos)).length = 4 :=
    i32ToBytes_length _
  have hp3len : p3.length = bs := by
    rw [hp3, length_writeAt (by rw [hhdrlen]; omega), hp2len]
  refine ⟨p2, p3, hset2, hset3, ⟨hp3len, ?_, by omega, ?_, ?_⟩, hp3len⟩
  · -- the new header decodes to the new boundary
    unfold getIntegerP
    rw [if_pos (by omega), hp3, ← hrp]
    rw [readBE4_writeAt_nat (by omega) (by omega)]
  · -- the record region [recPos, bs) is the new packed group
    rw [← hrp]
    have hpackApp : packRecs (g ++ [r]).reverse =
        encodeRec r ++ packRecs g.reverse := by
      rw [List.reverse_append]
      simp only [List.reverse_cons, List.reverse_nil, List.nil_append,
        List.singleton_append]
      exact packRecs_cons r g.reverse
    rw [hpackApp]
    apply ext_of_getD
    · rw [length_slice_of_le (by omega), List.length_append,
        encodeRec_length, packRecs_length, sizeSum_reverse]
      omega
    · intro i hi
      rw [length_slice_of_le (by omega)] at hi
      rw [getD_slice hi]
      by_cases hcase1 : i < 4
      · -- header bytes of the encoded record
        have e3 : p3.getD (recPos + i) 0 = p2.getD (recPos + i) 0 :=
          getD_writeAt_ge (by rw [hhdrlen]; omega) (by rw [hhdrlen]; omega)
        have e2 : p2.getD (recPos + i) 0 = p1.getD (recPos + i) 0 :=
          getD_writeAt_lt (by omega) (by omega)
        have e1 : p1.getD (recPos + i) 0 =
            (i32ToBytes (natToI32 r.length)).getD i 0 := by
          rw [hp1, getD_writeAt_mid (by rw [hlen1]; omega) (by omega)
            (by rw [hlen1]; omega)]
          congr 1
          omega
        rw [e3, e2, e1, getD_append_left (by rw [encodeRec_length]; omega)]
        unfold encodeRec
        rw [getD_append_left (by rw [i32ToBytes_length]; omega)]
      · by_cases hcase2 : i < 4 + r.length
        · -- payload bytes of the record
          have e3 : p3.getD (recPos + i) 0 = p2.getD (recPos + i) 0 :=
            getD_writeAt_ge (by rw [hhdrlen]; omega) (by rw [hhdrlen]; omega)
          have e2 : p2.getD (recPos + i) 0 = r.getD (i - 4) 0 := by
            rw [hp2, getD_writeAt_mid (by omega) (by omega) (by omega)]
            congr 1
            omega
          rw [e3, e2, getD_append_left (by rw [encodeRec_length]; omega)]
          unfold encodeRec
          rw [getD_append_right (by rw [i32ToBytes_length]; omega),
            i32ToBytes_length]
        · -- untouched old region
          have e3 : p3.getD (recPos + i) 0 = p2.getD (recPos + i) 0 :=
            getD_writeAt_ge (by rw [hhdrlen]; omega) (by rw [hhdrlen]; omega)
          have e2 : p2.getD (recPos + i) 0 = p1.getD (recPos + i) 0 :=
            getD_writeAt_ge (by omega) (by omega)
          have e1 : p1.getD (recPos + i) 0 = p.getD (recPos + i) 0 :=
            getD_writeAt_ge (by rw [hlen1]; omega) (by rw [hlen1]; omega)
          have hold : p.getD (recPos + i) 0 =
              (packRecs g.reverse).getD (i - (4 + r.length)) 0 := by
            rw [← hregion, getD_slice (by omega)]
            congr 1
            omega
          rw [e3, e2, e1, hold,
            getD_append_right (by rw [encodeRec_length]; omega),
            encodeRec_length]
  · intro r' hr'
    rcases List.mem_append.mp hr' with h | h
    · exact hwf r' h
    · simp only [List.mem_singleton] at h
      subst h
      omega

/-! ### Reducing `LogManager::append` on its two paths -/

lemma fmWrite_lt {bs : Nat} {d : List (List Nat)} {i : Nat} {p : List Nat}
    (h : i < d.length) : fmWrite bs d i p = d.set i p := by
  unfold fmWrite
  rw [if_pos h]

lemma fmWrite_at_length {bs : Nat} {d : List (List Nat)} {p : List Nat} :
    fmWrite bs d d.length p = d ++ [p] := by
  unfold fmWrite
  rw [if_neg (by omega)]
  simp

/-- Reduction of `append` when the record fits below the current boundary. -/
lemma appendL_reduce_fits (bs : Nat) {s : LogState} {r p2 p3 : List Nat}
    {bnd : Nat}
    (hb : getIntegerP s.logPage 0 = .ok ((bnd : Nat) : Int))
    (hbnd : bnd < 2 ^ 64)
    (hge : ¬(bnd < 4 + (r.length + 4)))
    (h1 : setBytesP s.logPage (bnd - (r.length + 4)) r = (.ok (), p2))
    (h2 : setIntegerP p2 0 (natToI32 (bnd - (r.length + 4))) = (.ok (), p3)) :
    appendL bs s r =
      (.ok (s.latestLsn + 1),
        { s with logPage := p3, latestLsn := s.latestLsn + 1 }) := by
  unfold appendL
  rw [hb]
  simp only [intToUsize_ofNat hbnd]
  rw [if_neg hge]
  simp only [h1, h2]

/-- Reduction of `append` when the record does not fit: flush, new block, reset boundary,
then write into the fresh tail. -/
lemma appendL_reduce_roll (bs : Nat) {s : LogState}
    {r pReset p2 p3 : List Nat} {bnd : Nat}
    (hb : getIntegerP s.logPage 0 = .ok ((bnd : Nat) : Int))
    (hbnd : bnd < 2 ^ 64) (hbs64 : bs < 2 ^ 64)
    (hlt : bnd < 4 + (r.length + 4))
    (hsetb : setIntegerP s.logPage 0 (natToI32 bs) = (.ok (), pReset))
    (hb2 : getIntegerP pReset 0 = .ok ((bs : Nat) : Int))
    (h1 : setBytesP pReset (bs - (r.length + 4)) r = (.ok (), p2))
    (h2 : setIntegerP p2 0 (natToI32 (bs - (r.length + 4))) = (.ok (), p3)) :
    appendL bs s r =
      (.ok (s.latestLsn + 1),
        { disk :=
            fmWrite bs
              (fmWrite bs (fmWrite bs s.disk s.currentBlock s.logPage)
                (fmWrite bs s.disk s.currentBlock s.logPage).length
                (zeroPage bs))
              (fmWrite bs s.disk s.currentBlock s.logPage).length pReset
          logPage := p3
          currentBlock := (fmWrite bs s.disk s.currentBlock s.logPage).length
          latestLsn := s.latestLsn + 1
          latestSavedLsn := s.latestLsn }) := by
  unfold appendL
  rw [hb]
  simp only [intToUsize_ofNat hbnd]
  rw [if_pos hlt]
  unfold flushInternalL appendNewBlockL
  simp only [hsetb, hb2, intToUsize_ofNat hbs64, h1, h2]

lemma set_append_length {α : Type} (l : List α) (a v : α) :
    (l ++ [a]).set l.length v = l ++ [v] := by
  induction l with
  | nil => rfl
  | cons x rest ih => simp [ih]

/-- One successful `append` preserves the layout invariant and returns the
next LSN. -/
lemma appendL_inv {bs : Nat} {recs : List (List Nat)} {s : LogState}
    {r : List Nat} (h8 : 8 ≤ bs) (hbs : bs < 2 ^ 31)
    (hinv : LogInv bs recs s) (hwf : r.length + 8 ≤ bs) :
    ∃ s', appendL bs s r = (.ok (recs.length + 1), s') ∧
      LogInv bs (recs ++ [r]) s' := by
  obtain ⟨g₀, gsrest, hgs⟩ :=
    List.exists_cons_of_ne_nil (grsRevOf_ne_nil bs recs)
  simp only [LogInv, hgs, List.headD_cons, List.length_cons] at hinv
  obtain ⟨hdlen, hcb, hhead, hrest, hlsn, hsaved, hdiskwf⟩ := hinv
  have hplen : s.logPage.length = bs := hhead.1
  have hbdry : getIntegerP s.logPage 0 =
      .ok ((bs - sizeSum g₀ : Nat) : Int) := hhead.2.1
  have hfit : sizeSum g₀ + 4 ≤ bs := hhead.2.2.1
  have hcblt : s.currentBlock < s.disk.length := by omega
  by_cases hf : sizeSum g₀ + 8 + r.length ≤ bs
  · -- the record fits into the current tail block
    obtain ⟨p2, p3, hset2, hset3, hrepr', hp3len⟩ :=
      write_record_into_repr hbs hhead hf
    have hposeq : bs - sizeSum g₀ - (4 + r.length) =
        (bs - sizeSum g₀) - (r.length + 4) := by omega
    rw [hposeq] at hset2 hset3
    have happ := appendL_reduce_fits bs hbdry (by omega) (by omega)
      hset2 hset3
    rw [hlsn] at happ
    refine ⟨_, happ, ?_⟩
    have hnew : grsRevOf bs (recs ++ [r]) = (g₀ ++ [r]) :: gsrest := by
      rw [grsRevOf_append, hgs]
      unfold addRecG
      dsimp only
      rw [if_pos hf]
    simp only [LogInv, hnew, List.headD_cons, List.length_cons]
    refine ⟨by simpa using hdlen, by simpa using hcb, hrepr', ?_, ?_, ?_, ?_⟩
    · intro j h1 h2
      obtain ⟨j', rfl⟩ : ∃ j', j = j' + 1 := ⟨j - 1, by omega⟩
      simp only [List.getD_cons_succ]
      have := hrest (j' + 1) h1 (by omega)
      simpa using this
    · simp [hlsn]
    · simp only [List.length_append, List.length_cons, List.length_nil]
      omega
    · exact hdiskwf
  · -- rollover: flush, new block, write into the fresh tail
    have hg₀ne : g₀ ≠ [] := by
      intro h0
      rw [h0, sizeSum_nil] at hf
      omega
    have hsetb : setIntegerP s.logPage 0 (natToI32 bs) =
        (.ok (), writeAt s.logPage 0 (i32ToBytes (natToI32 bs))) := by
      unfold setIntegerP
      rw [if_pos (by omega)]
    set pReset := writeAt s.logPage 0 (i32ToBytes (natToI32 bs)) with hpReset
    have hpResetLen : pReset.length = bs := by
      rw [hpReset, length_writeAt (by rw [i32ToBytes_length]; omega), hplen]
    have hb2 : getIntegerP pReset 0 = .ok ((bs : Nat) : Int) := by
      unfold getIntegerP
      rw [if_pos (by omega), hpReset]
      rw [readBE4_writeAt_nat hbs (by omega)]
    have hreprReset : blockRepr bs pReset [] :=
      blockRepr_empty (by omega) hpResetLen hb2
    have hfitsEmpty : sizeSum ([] : List (List Nat)) + 8 + r.length ≤ bs := by
      rw [sizeSum_nil]
      omega
    obtain ⟨p2, p3, hset2, hset3, hrepr', hp3len⟩ :=
      write_record_into_repr hbs hreprReset hfitsEmpty
    rw [show bs - sizeSum [] - (4 + r.length) = bs - (r.length + 4) by
      rw [sizeSum_nil]; omega] at hset2 hset3
    rw [show ([] : List (List Nat)) ++ [r] = [r] by simp] at hrepr'
    have happ := appendL_reduce_roll bs hbdry (by omega) (by omega)
      (by omega) hsetb hb2 hset2 hset3
    rw [hlsn] at happ
    -- put the final disk into closed form
    rw [fmWrite_lt hcblt] at happ
    rw [show fmWrite bs (s.disk.set s.currentBlock s.logPage)
        (s.disk.set s.currentBlock s.logPage).length (zeroPage bs) =
        s.disk.set s.currentBlock s.logPage ++ [zeroPage bs] from
      fmWrite_at_length] at happ
    rw [show fmWrite bs (s.disk.set s.currentBlock s.logPage ++ [zeroPage bs])
        (s.disk.set s.currentBlock s.logPage).length pReset =
        s.disk.set s.currentBlock s.logPage ++ [pReset] by
      rw [fmWrite_lt (by simp), List.length_set, ← List.length_set s.disk
        s.currentBlock s.logPage, set_append_length]] at happ
    rw [List.length_set] at happ
    refine ⟨_, happ, ?_⟩
    have hnew : grsRevOf bs (recs ++ [r]) = [r] :: g₀ :: gsrest := by
      rw [grsRevOf_append, hgs]
      unfold addRecG
      dsimp only
      rw [if_neg hf]
    simp only [LogInv, hnew, List.headD_cons, List.length_cons]
    have hdl : s.disk.length = s.currentBlock + 1 := by omega
    refine ⟨?_, ?_, hrepr', ?_, ?_, ?_, ?_⟩
    · simp only [List.length_append, List.length_set, List.length_cons,
        List.length_nil]
      omega
    · omega
    · intro j h1 h2
      obtain ⟨j', rfl⟩ : ∃ j', j = j' + 1 := ⟨j - 1, by omega⟩
      simp only [List.getD_cons_succ]
      match j', h2 with
      | 0, _ =>
        -- the just-sealed tail block holds the old head group
        refine ⟨?_, hg₀ne⟩
        simp only [List.getD_cons_zero]
        have hidx : s.disk.length - (0 + 1) = s.currentBlock := by omega
        unfold diskRead
        rw [hidx, getD_append_left (by rw [List.length_set]; omega),
          getD_set_self hcblt]
        exact hhead
      | j'' + 1, hh =>
        have hj2 : j'' + 1 + 1 < gsrest.length + 2 := by simpa using hh
        have hold := hrest (j'' + 1) (by omega) (by omega)
        simp only [List.getD_cons_succ] at hold ⊢
        refine ⟨?_, hold.2⟩
        have hidx : s.disk.length - (j'' + 1 + 1) =
            s.currentBlock - (j'' + 1) := by omega
        unfold diskRead
        rw [hidx]
        have hlt2 : s.currentBlock - (j'' + 1) < s.currentBlock := by omega
        rw [getD_append_left (by rw [List.length_set]; omega),
          getD_set_ne (by omega)]
        exact hold.1
    · simp [hlsn]
    · simp only [List.length_append, List.length_cons, List.length_nil]
      omega
    · intro q hq
      rcases List.mem_append.mp hq with h | h
      · rcases List.mem_or_eq_of_mem_set h with h' | h'
        · exact hdiskwf q h'
        · rw [h']; exact hplen
      · simp only [List.mem_singleton] at h
        rw [h]
        exact hpResetLen

/-! ### From construction to a full reverse scan -/

lemma logInit_inv {bs : Nat} (h8 : 8 ≤ bs) (hbs : bs < 2 ^ 31) :
    LogInv bs [] (logInit bs) := by
  have hzlen : (zeroPage bs).length = bs := List.length_replicate bs 0
  have hset : setIntegerP (zeroPage bs) 0 (natToI32 bs) =
      (.ok (), writeAt (zeroPage bs) 0 (i32ToBytes (natToI32 bs))) := by
    unfold setIntegerP
    rw [if_pos (by omega)]
  set p := writeAt (zeroPage bs) 0 (i32ToBytes (natToI32 bs)) with hp
  have hplen : p.length = bs := by
    rw [hp, length_writeAt (by rw [i32ToBytes_length]; omega), hzlen]
  have hpexp : (setIntegerP (zeroPage bs) 0 (natToI32 bs)).2 = p := by
    rw [hset]
  have hdisk : (logInit bs).disk = [p] := by
    unfold logInit
    rw [hpexp]
    show fmWrite bs (fmWrite bs [] 0 (zeroPage bs)) 0 p = [p]
    simp [fmWrite]
  have hpage : (logInit bs).logPage = p := by
    unfold logInit
    rw [hpexp]
  have hbdry : getIntegerP p 0 = .ok ((bs : Nat) : Int) := by
    unfold getIntegerP
    rw [if_pos (by omega), hp, readBE4_writeAt_nat hbs (by omega)]
  have hcb0 : (logInit bs).currentBlock = 0 := rfl
  have hl0 : (logInit bs).latestLsn = 0 := rfl
  have hs0 : (logInit bs).latestSavedLsn = 0 := rfl
  simp only [LogInv, grsRevOf, List.foldl, hdisk, hpage, hcb0, hl0, hs0]
  refine ⟨by simp, by simp, ?_, ?_, by simp, by simp, ?_⟩
  · simpa using blockRepr_empty (by omega) hplen hbdry
  · intro j h1 h2
    simp only [List.length_cons, List.length_nil] at h2
    omega
  · intro q hq
    simp only [List.mem_singleton] at hq
    rw [hq]
    exact hplen

lemma appendAll_inv {bs : Nat} (h8 : 8 ≤ bs) (hbs : bs < 2 ^ 31) :
    ∀ (recs acc : List (List Nat)) (s : LogState),
    LogInv bs acc s → (∀ r ∈ recs, r.length + 8 ≤ bs) →
    ∃ s', appendAll bs s recs = some s' ∧ LogInv bs (acc ++ recs) s' := by
  intro recs
  induction recs with
  | nil =>
    intro acc s hinv _
    exact ⟨s, rfl, by simpa using hinv⟩
  | cons r rest ih =>
    intro acc s hinv hwf
    obtain ⟨s1, happ, hinv1⟩ := appendL_inv h8 hbs hinv (hwf r (by simp))
    obtain ⟨s', hall, hinv'⟩ := ih (acc ++ [r]) s1 hinv1
      (fun r' h => hwf r' (by simp [h]))
    refine ⟨s', ?_, by simpa using hinv'⟩
    simp only [appendAll, happ]
    exact hall

/-- After a flush that covers the whole tail, the reverse scan returns every
appended record, newest first. -/
lemma log_reverse_scan {bs : Nat} {recs : List (List Nat)} {s : LogState}
    (h8 : 8 ≤ bs) (hbs : bs < 2 ^ 31) (hinv : LogInv bs recs s) :
    logRecords bs (flushL bs s s.latestLsn) = .ok recs.reverse := by
  obtain ⟨g₀, gsrest, hgs⟩ :=
    List.exists_cons_of_ne_nil (grsRevOf_ne_nil bs recs)
  simp only [LogInv, hgs, List.headD_cons, List.length_cons] at hinv
  obtain ⟨hdlen, hcb, hhead, hrest, hlsn, hsaved, hdiskwf⟩ := hinv
  have hcblt : s.currentBlock < s.disk.length := by omega
  have hflush : flushL bs s s.latestLsn = flushInternalL bs s := by
    unfold flushL
    rw [if_pos (by omega)]
  rw [hflush]
  unfold flushInternalL logRecords
  dsimp only
  rw [fmWrite_lt hcblt]
  have hreadtail : diskRead bs (s.disk.set s.currentBlock s.logPage)
      s.currentBlock = s.logPage := by
    unfold diskRead
    rw [getD_set_self hcblt]
  rw [hreadtail, hhead.2.1]
  dsimp only
  rw [show intToUsize ((bs - sizeSum g₀ : Nat) : Int) = bs - sizeSum g₀ from
    intToUsize_ofNat (by omega)]
  have hiter := iter_blocks hbs (g₀ :: gsrest)
    (s.disk.set s.currentBlock s.logPage)
    ((bs - sizeSum g₀ : Nat) : Int) (by simp)
    (fun j hj => by
      match j, hj with
      | 0, _ =>
        simp only [List.length_cons, Nat.add_sub_cancel, Nat.sub_zero,
          List.getD_cons_zero]
        have hidx : gsrest.length = s.currentBlock := by omega
        rw [hidx, hreadtail]
        exact hhead
      | j' + 1, hj =>
        simp only [List.length_cons, Nat.add_sub_cancel, List.getD_cons_succ]
        have hold := hrest (j' + 1) (by omega) (by simpa using hj)
        simp only [List.getD_cons_succ] at hold
        have hidx : gsrest.length - (j' + 1) =
            s.currentBlock - (j' + 1) := by omega
        rw [hidx]
        have hlt2 : s.currentBlock - (j' + 1) < s.currentBlock := by
          simp only [List.length_cons] at hj
          omega
        unfold diskRead
        rw [getD_set_ne (by omega)]
        exact hold.1)
    (fun j h1 hj => by
      have := hrest j h1 (by simpa using hj)
      exact this.2)
  simp only [List.length_cons, Nat.add_sub_cancel, List.headD_cons] at hiter
  have hidx2 : gsrest.length = s.currentBlock := by omega
  rw [hidx2] at hiter
  rw [hreadtail] at hiter
  rw [hiter]
  rw [← hgs, grsRevOf_flatten]

/-! ### Buffer-pool accounting -/

lemma findIdx?_facts_aux {α : Type} (p : α → Bool) (d : α) :
    ∀ (l : List α) (s i : Nat), List.findIdx? p l s = some i →
      s ≤ i ∧ i - s < l.length ∧ p (l.getD (i - s) d) = true := by
  intro l
  induction l with
  | nil =>
    intro s i h
    simp [List.findIdx?] at h
  | cons x xs ih =>
    intro s i h
    rw [List.findIdx?_cons] at h
    split at h
    · rename_i hx
      simp only [Option.some.injEq] at h
      subst h
      refine ⟨Nat.le_refl _, by simp, ?_⟩
      simp only [Nat.sub_self, List.getD_cons_zero]
      exact hx
    · obtain ⟨h1, h2, h3⟩ := ih (s + 1) i h
      refine ⟨by omega, by simp only [List.length_cons]; omega, ?_⟩
      have hidx : i - s = (i - (s + 1)) + 1 := by omega
      rw [hidx, List.getD_cons_succ]
      exact h3

lemma findIdx?_facts {α : Type} (p : α → Bool) (d : α)
    (l : List α) (i : Nat) (h : l.findIdx? p = some i) :
    i < l.length ∧ p (l.getD i d) = true := by
  have := findIdx?_facts_aux p d l 0 i h
  simpa using this

lemma getD_mem {α : Type} {l : List α} {i : Nat} {d : α}
    (h : i < l.length) : l.getD i d ∈ l := by
  rw [List.getD_eq_getElem?_getD, List.getElem?_eq_getElem h]
  exact List.getElem_mem h

lemma countP_set_add {α : Type} (q : α → Bool) (d : α) :
    ∀ (l : List α) (i : Nat) (v : α), i < l.length →
      (l.set i v).countP q + (if q (l.getD i d) then 1 else 0) =
        l.countP q + (if q v then 1 else 0) := by
  intro l
  induction l with
  | nil =>
    intro i v h
    simp at h
  | cons x xs ih =>
    intro i v h
    match i with
    | 0 =>
      simp only [List.set_cons_zero, List.countP_cons, List.getD_cons_zero]
      omega
    | i + 1 =>
      simp only [List.set_cons_succ, List.countP_cons, List.getD_cons_succ]
      have := ih i v (by simpa using h)
      omega

/-- The pool bookkeeping invariant of the amended accounting claim:
`available` counts the unpinned slots, and no pool buffer ever carries a
transaction (`set_modified` is not among the modelled calls). -/
def MgrInv (m : Mgr) : Prop :=
  m.available = countUnpinned m.pool ∧ ∀ b ∈ m.pool, b.txnum = -1

lemma countUnpinned_set (pool : List BufState) (i : Nat) (v : BufState)
    (h : i < pool.length) :
    countUnpinned (pool.set i v) +
        (if (pool.getD i (newBuffer 0)).pins = 0 then 1 else 0) =
      countUnpinned pool + (if v.pins = 0 then 1 else 0) := by
  have hc := countP_set_add (fun b => decide (b.pins = 0)) (newBuffer 0)
    pool i v h
  unfold countUnpinned
  simpa using hc

lemma bufferFlush_clean {bs : Nat} {sys : Sys} {b : BufState}
    (h : b.txnum = -1) : bufferFlush bs sys b = some (sys, b) := by
  unfold bufferFlush
  rw [if_neg (by rw [h]; omega)]

lemma flushAllM_clean {bs : Nat} {txn : Int} :
    ∀ (l : List BufState) (sys : Sys) (acc : List BufState),
    (∀ b ∈ l, b.txnum = -1) →
    flushAllM.go bs txn sys acc l = some (sys, acc ++ l) := by
  intro l
  induction l with
  | nil =>
    intro sys acc _
    unfold flushAllM.go
    simp
  | cons b rest ih =>
    intro sys acc hl
    unfold flushAllM.go
    split
    · rw [bufferFlush_clean (hl b (by simp))]
      dsimp only
      rw [ih sys (acc ++ [b]) (fun b' h => hl b' (by simp [h]))]
      simp
    · rw [ih sys (acc ++ [b]) (fun b' h => hl b' (by simp [h]))]
      simp

/-- One admissible `BufferManager` call preserves the accounting
invariant and cannot panic. -/
lemma mgrStep_inv {bs : Nat} {sys : Sys} {m : Mgr} {op : MOp}
    (hinv : MgrInv m) (hok : okOp m op = true) :
    ∃ s', mgrStep bs (sys, m) op = some s' ∧ MgrInv s'.2 := by
  obtain ⟨hcount, htx⟩ := hinv
  cases op with
  | unpin i =>
    simp only [okOp, Bool.and_eq_true, decide_eq_true_eq] at hok
    obtain ⟨hilen, hpin⟩ := hok
    refine ⟨(sys, unpinMgr m i), rfl, ?_, ?_⟩
    · -- counting
      have hcs := countUnpinned_set m.pool i
        (unpinB (m.pool.getD i (newBuffer 0))) hilen
      rw [if_neg (by omega)] at hcs
      simp only [unpinMgr, unpinB, if_pos hpin] at hcs ⊢
      by_cases hz : (m.pool.getD i (newBuffer 0)).pins - 1 = 0
      · rw [if_pos hz]
        rw [if_pos hz] at hcs
        omega
      · rw [if_neg hz]
        rw [if_neg hz] at hcs
        omega
    · -- txnum frame
      intro b hb
      simp only [unpinMgr] at hb
      rcases List.mem_or_eq_of_mem_set hb with h | h
      · exact htx b h
      · subst h
        unfold unpinB
        split <;>
          exact show (m.pool.getD i (newBuffer 0)).txnum = -1 from
            htx _ (getD_mem hilen)
  | flushAll txn =>
    have hgo := @flushAllM_clean bs txn m.pool sys [] htx
    refine ⟨(sys, { m with pool := [] ++ m.pool }), ?_, by simpa using hcount,
      by simpa using htx⟩
    simp only [mgrStep, flushAllM, hgo]
  | pin bid =>
    match hfind : findExisting m bid with
    | some i =>
      obtain ⟨hilen, _⟩ := findIdx?_facts _ (newBuffer 0) m.pool i hfind
      refine ⟨(sys,
        { pool := m.pool.set i (pinB (m.pool.getD i (newBuffer 0)))
          available := if (m.pool.getD i (newBuffer 0)).pins = 0
            then m.available - 1 else m.available }), ?_, ?_, ?_⟩
      · simp only [mgrStep, tryToPin, hfind]
      · -- counting
        have hcs := countUnpinned_set m.pool i
          (pinB (m.pool.getD i (newBuffer 0))) hilen
        rw [show (if (pinB (m.pool.getD i (newBuffer 0))).pins = 0
            then 1 else 0) = 0 from by simp [pinB]] at hcs
        simp only
        by_cases hz : (m.pool.getD i (newBuffer 0)).pins = 0
        · rw [if_pos hz]
          rw [if_pos hz] at hcs
          omega
        · rw [if_neg hz]
          rw [if_neg hz] at hcs
          omega
      · intro b hb
        simp only at hb
        rcases List.mem_or_eq_of_mem_set hb with h | h
        · exact htx b h
        · subst h
          exact show (m.pool.getD i (newBuffer 0)).txnum = -1 from
            htx _ (getD_mem hilen)
    | none =>
      match hchoose : chooseUnpinned m with
      | some i =>
        obtain ⟨hilen, hq⟩ := findIdx?_facts _ (newBuffer 0) m.pool i hchoose
        simp only [decide_eq_true_eq] at hq
        have hbtx : (m.pool.getD i (newBuffer 0)).txnum = -1 :=
          htx _ (getD_mem hilen)
        have hassign : assignToBlock bs sys (m.pool.getD i (newBuffer 0)) bid =
            some (sys, { m.pool.getD i (newBuffer 0) with
              blockId := some bid, page := sys.data bid, pins := 0 }) := by
          unfold assignToBlock
          rw [bufferFlush_clean hbtx]
        refine ⟨(sys,
          { pool := m.pool.set i (pinB { m.pool.getD i (newBuffer 0) with
              blockId := some bid, page := sys.data bid, pins := 0 })
            available := m.available - 1 }), ?_, ?_, ?_⟩
        · simp only [mgrStep, tryToPin, hfind, hchoose, hassign]
        · -- counting
          have hcs := countUnpinned_set m.pool i
            (pinB { m.pool.getD i (newBuffer 0) with
              blockId := some bid, page := sys.data bid, pins := 0 }) hilen
          rw [show (if (pinB { m.pool.getD i (newBuffer 0) with
              blockId := some bid, page := sys.data bid,
              pins := 0 }).pins = 0 then 1 else 0) = 0 from
            by simp [pinB]] at hcs
          rw [if_pos hq] at hcs
          dsimp only at hcs
          simp only
          omega
        · intro b hb
          simp only at hb
          rcases List.mem_or_eq_of_mem_set hb with h | h
          · exact htx b h
          · subst h
            exact show (m.pool.getD i (newBuffer 0)).txnum = -1 from hbtx
      | none =>
        refine ⟨(sys, m), ?_, hcount, htx⟩
        simp only [mgrStep, tryToPin, hfind, hchoose]

lemma mgrInit_inv (bs n : Nat) : MgrInv (mgrInit bs n) := by
  constructor
  · simp only [mgrInit, countUnpinned]
    rw [List.countP_eq_length_filter, List.filter_replicate]
    simp [newBuffer]
  · intro b hb
    simp only [mgrInit] at hb
    rw [List.eq_of_mem_replicate hb]
    rfl

lemma mgrRun_inv {bs : Nat} :
    ∀ (ops : List MOp) (s : Sys × Mgr), MgrInv s.2 →
    okRun bs s ops = true →
    ∃ s', mgrRun bs s ops = some s' ∧ MgrInv s'.2 := by
  intro ops
  induction ops with
  | nil =>
    intro s hinv _
    exact ⟨s, rfl, hinv⟩
  | cons op rest ih =>
    intro s hinv hok
    simp only [okRun, Bool.and_eq_true] at hok
    obtain ⟨hop, hrest⟩ := hok
    obtain ⟨s1, hstep, hinv1⟩ := @mgrStep_inv bs s.1 s.2 op hinv hop
    rw [show ((s.1, s.2) : Sys × Mgr) = s by rfl] at hstep
    rw [hstep] at hrest
    obtain ⟨s', hrun, hinv'⟩ := ih s1 hinv1 hrest
    refine ⟨s', ?_, hinv'⟩
    simp only [mgrRun, hstep]
    exact hrun

/-! ### LSN counter monotonicity -/

lemma appendNewBlockL_counters (bs : Nat) (s : LogState) :
    (appendNewBlockL bs s).2.latestLsn = s.latestLsn ∧
      (appendNewBlockL bs s).2.latestSavedLsn = s.latestSavedLsn := by
  unfold appendNewBlockL
  match hset : setIntegerP s.logPage 0 (natToI32 bs) with
  | (.error e, p1) => exact ⟨rfl, rfl⟩
  | (.ok u, p1) => exact ⟨rfl, rfl⟩

lemma appendL_saved_le {bs : Nat} {s : LogState} {r : List Nat}
    (h : s.latestSavedLsn ≤ s.latestLsn) :
    (appendL bs s r).2.latestSavedLsn ≤ (appendL bs s r).2.latestLsn := by
  unfold appendL
  match hgi : getIntegerP s.logPage 0 with
  | .error e => exact h
  | .ok b0 =>
    dsimp only
    by_cases hc : intToUsize b0 < 4 + (r.length + 4)
    · rw [if_pos hc]
      match hnb : appendNewBlockL bs (flushInternalL bs s) with
      | (.error e2, s2) =>
        have hcnt := appendNewBlockL_counters bs (flushInternalL bs s)
        rw [hnb] at hcnt
        simp only [flushInternalL] at hcnt
        dsimp only
        omega
      | (.ok blk, s2) =>
        have hcnt := appendNewBlockL_counters bs (flushInternalL bs s)
        rw [hnb] at hcnt
        simp only [flushInternalL] at hcnt
        dsimp only
        match hgi2 : getIntegerP
            ({ s2 with currentBlock := blk } : LogState).logPage 0 with
        | .error e3 =>
          dsimp only
          omega
        | .ok b1 =>
          dsimp only
          match hsb : setBytesP
              ({ s2 with currentBlock := blk } : LogState).logPage
              (intToUsize b1 - (r.length + 4)) r with
          | (.error e4, p1) =>
            dsimp only
            omega
          | (.ok u, p1) =>
            dsimp only
            match hsi : setIntegerP p1 0
                (natToI32 (intToUsize b1 - (r.length + 4))) with
            | (.error e5, p2) =>
              dsimp only
              omega
            | (.ok u2, p2) =>
              dsimp only
              omega
    · rw [if_neg hc]
      dsimp only
      match hsb : setBytesP s.logPage (intToUsize b0 - (r.length + 4)) r with
      | (.error e4, p1) => exact h
      | (.ok u, p1) =>
        dsimp only
        match hsi : setIntegerP p1 0
            (natToI32 (intToUsize b0 - (r.length + 4))) with
        | (.error e5, p2) => exact h
        | (.ok u2, p2) =>
          dsimp only
          omega

lemma flushL_saved_le {bs : Nat} {s : LogState} {lsn : Nat}
    (h : s.latestSavedLsn ≤ s.latestLsn) :
    (flushL bs s lsn).latestSavedLsn ≤ (flushL bs s lsn).latestLsn := by
  unfold flushL flushInternalL
  split
  · simp
  · exact h

lemma stepLog_saved_le {bs : Nat} {s : LogState} {op : LogOp}
    (h : s.latestSavedLsn ≤ s.latestLsn) :
    (stepLog bs s op).latestSavedLsn ≤ (stepLog bs s op).latestLsn := by
  cases op with
  | append r => exact appendL_saved_le h
  | flush lsn => exact flushL_saved_le h

/-! ## Claim theorems -/

/-- C1: `Buffer::flush` on a dirty buffer (`txnum ≥ 0`) first invokes
`LogManager::flush` with the buffer's stored LSN and only then performs the
single `FileManager::write` of the buffer's page; on a clean buffer
(`txnum < 0`) it performs neither a log flush nor a page write. -/
theorem claim_C1 (bs : Nat) (sys : Sys) (b : BufState) (bid : BId)
    (hb : b.blockId = some bid) :
    (0 ≤ b.txnum →
      ∃ sys', bufferFlush bs sys b = some (sys', b) ∧
        sys'.log = flushL bs sys.log (intToUsize b.lsn) ∧
        ∃ evs, sys'.trace = sys.trace ++ evs ++ [Ev.dataW bid] ∧
          ∀ e ∈ evs, ∃ k, e = Ev.logW k) ∧
    (b.txnum < 0 → bufferFlush bs sys b = some (sys, b)) := by
  constructor
  · intro ht
    unfold bufferFlush
    rw [if_pos ht, hb]
    refine ⟨_, rfl, ?_, ?_⟩
    · show (flushT bs sys (intToUsize b.lsn)).log =
        flushL bs sys.log (intToUsize b.lsn)
      unfold flushT flushInternalT flushL
      split <;> rfl
    · by_cases hf : intToUsize b.lsn ≥ sys.log.latestSavedLsn
      · refine ⟨[Ev.logW sys.log.currentBlock], ?_, ?_⟩
        · show (flushT bs sys (intToUsize b.lsn)).trace ++ [Ev.dataW bid] = _
          unfold flushT flushInternalT
          rw [if_pos hf]
        · intro e he
          simp only [List.mem_singleton] at he
          exact ⟨sys.log.currentBlock, he⟩
      · refine ⟨[], ?_, ?_⟩
        · show (flushT bs sys (intToUsize b.lsn)).trace ++ [Ev.dataW bid] = _
          unfold flushT
          rw [if_neg hf]
          simp
        · intro e he
          simp at he
  · intro ht
    unfold bufferFlush
    rw [if_neg (by omega)]

/-- C1 witness: a concrete dirty buffer bound to block `(1, 0)`. -/
theorem claim_C1_witness :
    ∃ sys', bufferFlush 4 (sysInit 4)
        { page := zeroPage 4, blockId := some (1, 0), pins := 0,
          txnum := 3, lsn := 2 } =
      some (sys',
        { page := zeroPage 4, blockId := some (1, 0), pins := 0,
          txnum := 3, lsn := 2 }) ∧
      sys'.log = flushL 4 (sysInit 4).log (intToUsize 2) ∧
      ∃ evs, sys'.trace = (sysInit 4).trace ++ evs ++ [Ev.dataW (1, 0)] ∧
        ∀ e ∈ evs, ∃ k, e = Ev.logW k :=
  (claim_C1 4 (sysInit 4)
    { page := zeroPage 4, blockId := some (1, 0), pins := 0,
      txnum := 3, lsn := 2 } (1, 0) rfl).1 (by decide)

/-- C9: `Buffer::flush` leaves the buffer record — in particular `txnum` and
`lsn` — unchanged (it never resets `txnum` to `-1`), so a later
`flush_all` with the same transaction id flushes the buffer again,
performing a redundant page write. -/
theorem claim_C9 (bs : Nat) (sys : Sys) (b : BufState) (bid : BId)
    (hb : b.blockId = some bid) (ht : 0 ≤ b.txnum) :
    ∃ sys1, bufferFlush bs sys b = some (sys1, b) ∧
      ∃ sys2 m2, flushAllM bs sys1 ⟨[b], 0⟩ b.txnum = some (sys2, m2) ∧
        ∃ pre, sys2.trace = pre ++ [Ev.dataW bid] := by
  have hflush : ∀ sysx : Sys, bufferFlush bs sysx b =
      some ({ flushT bs sysx (intToUsize b.lsn) with
        data := fun x => if x = bid then b.page
          else (flushT bs sysx (intToUsize b.lsn)).data x
        trace := (flushT bs sysx (intToUsize b.lsn)).trace ++
          [Ev.dataW bid] }, b) := by
    intro sysx
    unfold bufferFlush
    rw [if_pos ht, hb]
  have hgo : ∀ sysx : Sys, flushAllM bs sysx ⟨[b], 0⟩ b.txnum =
      some ({ flushT bs sysx (intToUsize b.lsn) with
          data := fun x => if x = bid then b.page
            else (flushT bs sysx (intToUsize b.lsn)).data x
          trace := (flushT bs sysx (intToUsize b.lsn)).trace ++
            [Ev.dataW bid] },
        { pool := [] ++ [b], available := 0 }) := by
    intro sysx
    unfold flushAllM
    dsimp only
    unfold flushAllM.go
    rw [if_pos rfl, hflush sysx]
    dsimp only
    unfold flushAllM.go
    rfl
  exact ⟨_, hflush sys, _, _, hgo _, ⟨_, rfl⟩⟩

/-- C9 witness: the concrete dirty buffer of the C1 witness, flushed and
then flushed again through `flush_all`. -/
theorem claim_C9_witness :
    ∃ sys1, bufferFlush 4 (sysInit 4)
        { page := zeroPage 4, blockId := some (1, 0), pins := 0,
          txnum := 3, lsn := 2 } =
      some (sys1,
        { page := zeroPage 4, blockId := some (1, 0), pins := 0,
          txnum := 3, lsn := 2 }) ∧
      ∃ sys2 m2, flushAllM 4 sys1
          ⟨[{ page := zeroPage 4, blockId := some (1, 0), pins := 0,
              txnum := 3, lsn := 2 }], 0⟩ 3 = some (sys2, m2) ∧
        ∃ pre, sys2.trace = pre ++ [Ev.dataW (1, 0)] :=
  claim_C9 4 (sysInit 4)
    { page := zeroPage 4, blockId := some (1, 0), pins := 0,
      txnum := 3, lsn := 2 } (1, 0) rfl (by decide)

/-- C10: calling `set_modified` with a non-negative transaction id on a
buffer that was never assigned a block, then flushing it, panics on the
`unwrap` of the absent `block_id` (modelled as `none`). -/
theorem claim_C10 (bs : Nat) (sys : Sys) (b : BufState) (tx ls : Int)
    (hb : b.blockId = none) (ht : 0 ≤ tx) :
    bufferFlush bs sys (setModified b tx ls) = none := by
  unfold bufferFlush setModified
  dsimp only
  rw [if_pos ht, hb]

/-- C10 witness: a fresh pool buffer marked modified by transaction 0. -/
theorem claim_C10_witness :
    bufferFlush 4 (sysInit 4) (setModified (newBuffer 4) 0 5) = none :=
  claim_C10 4 (sysInit 4) (newBuffer 4) 0 5 rfl (by decide)

/-- C5: along every sequence of `append` and `flush` calls from
construction, `latest_saved_lsn ≤ latest_lsn` holds (both start at 0,
`append` increments `latest_lsn`, every flush sets `latest_saved_lsn` to
`latest_lsn`) — including the states left behind by failed appends. -/
theorem claim_C5 (bs : Nat) (ops : List LogOp) :
    (ops.foldl (stepLog bs) (logInit bs)).latestSavedLsn ≤
      (ops.foldl (stepLog bs) (logInit bs)).latestLsn := by
  have hmain : ∀ (l : List LogOp) (s : LogState),
      s.latestSavedLsn ≤ s.latestLsn →
      (l.foldl (stepLog bs) s).latestSavedLsn ≤
        (l.foldl (stepLog bs) s).latestLsn := by
    intro l
    induction l with
    | nil => intro s hs; exact hs
    | cons op rest ih =>
      intro s hs
      exact ih _ (stepLog_saved_le hs)
  exact hmain ops (logInit bs) (Nat.le_refl 0)

/-- C6: each page setter (`set_integer`, `set_bytes`, `set_string`) either
succeeds, or fails leaving the content byte-for-byte unchanged; in all cases
the page length never changes. -/
theorem claim_C6 (p : List Nat) (off : Nat) (v : Int) (bytes chars : List Nat) :
    ((setIntegerP p off v).1.isOk = false → (setIntegerP p off v).2 = p) ∧
    (setIntegerP p off v).2.length = p.length ∧
    ((setBytesP p off bytes).1.isOk = false → (setBytesP p off bytes).2 = p) ∧
    (setBytesP p off bytes).2.length = p.length ∧
    ((setStringP p off chars).1.isOk = false →
      (setStringP p off chars).2 = p) ∧
    (setStringP p off chars).2.length = p.length := by
  have hint : ∀ (q : List Nat) (o : Nat) (w : Int),
      ((setIntegerP q o w).1.isOk = false → (setIntegerP q o w).2 = q) ∧
      (setIntegerP q o w).2.length = q.length := by
    intro q o w
    unfold setIntegerP
    split
    · rename_i hle
      exact ⟨fun h => (nomatch h),
        length_writeAt (by rw [i32ToBytes_length]; omega)⟩
    · exact ⟨fun _ => rfl, rfl⟩
  have hbytes : ∀ (q : List Nat) (o : Nat) (w : List Nat),
      ((setBytesP q o w).1.isOk = false → (setBytesP q o w).2 = q) ∧
      (setBytesP q o w).2.length = q.length := by
    intro q o w
    unfold setBytesP
    split
    · rename_i hle
      split
      · exact ⟨fun _ => rfl, rfl⟩
      · rename_i hsz
        refine ⟨fun h => (nomatch h), ?_⟩
        rw [length_writeAt, (hint q o (natToI32 w.length)).2]
        rw [(hint q o (natToI32 w.length)).2]
        omega
    · exact ⟨fun _ => rfl, rfl⟩
  exact ⟨(hint p off v).1, (hint p off v).2, (hbytes p off bytes).1,
    (hbytes p off bytes).2, (hbytes p off chars).1, (hbytes p off chars).2⟩

/-- C6 witness: on a 2-byte page every setter fails and leaves the page
unchanged. -/
theorem claim_C6_witness :
    (setIntegerP [5, 6] 0 7).2 = [5, 6] ∧
    (setBytesP [5, 6] 0 [1]).2 = [5, 6] ∧
    (setStringP [5, 6] 0 [2]).2 = [5, 6] :=
  ⟨(claim_C6 [5, 6] 0 7 [1] [2]).1 (by decide),
    (claim_C6 [5, 6] 0 7 [1] [2]).2.2.1 (by decide),
    (claim_C6 [5, 6] 0 7 [1] [2]).2.2.2.2.1 (by decide)⟩

/-- C7: `get_bytes` returns an out-of-bounds error when the 4-byte prefix
does not fit, an invalid-data error when the stored length is negative or
reaches past the page end, and otherwise exactly the stored-length bytes
that follow the prefix — never a panic or an out-of-range read. -/
theorem claim_C7 (p : List Nat) (off : Nat) :
    (p.length < off + 4 → getBytesP p off = .error .outOfBounds) ∧
    (∀ L : Int, off + 4 ≤ p.length → getIntegerP p off = .ok L →
      (L < 0 → getBytesP p off = .error .invalidData) ∧
      (0 ≤ L → p.length < off + 4 + L.toNat →
        getBytesP p off = .error .invalidData) ∧
      (0 ≤ L → off + 4 + L.toNat ≤ p.length →
        ∃ r, getBytesP p off = .ok r ∧ r.length = L.toNat ∧
          ∀ i, i < L.toNat → r.getD i 0 = p.getD (off + 4 + i) 0)) := by
  constructor
  · intro hlt
    unfold getBytesP
    rw [if_neg (by omega)]
  · intro L hle hread
    unfold getBytesP
    rw [if_pos hle, hread]
    dsimp only
    refine ⟨?_, ?_, ?_⟩
    · intro hneg
      rw [if_pos hneg]
    · intro hpos hlen
      rw [if_neg (by omega), if_pos (by omega)]
    · intro hpos hlen
      rw [if_neg (by omega), if_neg (by omega)]
      refine ⟨slice p (off + 4) L.toNat, rfl,
        length_slice_of_le (by omega), ?_⟩
      intro i hi
      exact getD_slice hi

/-- C7 witness: prefix 3 at offset 0 of an 8-byte page reads back the three
payload bytes. -/
theorem claim_C7_witness :
    ∃ r, getBytesP [0, 0, 0, 3, 7, 8, 9, 0] 0 = .ok r ∧
      r.length = (3 : Int).toNat ∧
      ∀ i, i < (3 : Int).toNat →
        r.getD i 0 = [0, 0, 0, 3, 7, 8, 9, 0].getD (0 + 4 + i) 0 :=
  ((claim_C7 [0, 0, 0, 3, 7, 8, 9, 0] 0).2 3 (by decide)
    (by decide)).2.2 (by decide) (by decide)

/-- C8 (amended): read and decode failures inside `LogIterator::next` are
swallowed by `.ok()?` — the iterator returns `None`, indistinguishable from
normal end-of-sequence, instead of reporting the error. -/
theorem claim_C8 (bs : Nat) (disk : List (List Nat)) (it : IterState) :
    (¬(bs ≤ it.pos ∧ it.blkNo = 0) → it.pos ≠ bs →
      (getBytesP it.page it.pos).isOk = false →
      iterNext bs disk it = none) ∧
    (¬(bs ≤ it.pos ∧ it.blkNo = 0) → it.pos = bs →
      (getIntegerP (diskRead bs disk (it.blkNo - 1)) 0).isOk = false →
      iterNext bs disk it = none) := by
  constructor
  · intro h1 h2 h3
    unfold iterNext
    rw [if_neg h1, if_neg h2]
    dsimp only
    match hg : getBytesP it.page it.pos with
    | .error e => rfl
    | .ok rec =>
      rw [hg] at h3
      exact nomatch h3
  · intro h1 h2 h3
    unfold iterNext
    rw [if_neg h1, if_pos h2]
    unfold iterSwitch
    match hg : getIntegerP (diskRead bs disk (it.blkNo - 1)) 0 with
    | .error e => rfl
    | .ok v =>
      rw [hg] at h3
      exact nomatch h3

/-- C8 witness: a corrupt record position makes `next` return `None`. -/
theorem claim_C8_witness :
    iterNext 8 [] ⟨3, List.replicate 8 0, 6, 6⟩ = none :=
  (claim_C8 8 [] ⟨3, List.replicate 8 0, 6, 6⟩).1 (by decide) (by decide)
    (by decide)

/-- C8 counterexample to the original claim: a decode failure (out-of-range
record read) yields the same `None` as a legitimately exhausted iterator —
the failure is not reported to the caller. -/
theorem claim_C8_counterexample :
    (getBytesP (List.replicate 8 0) 6).isOk = false ∧
    iterNext 8 [] ⟨3, List.replicate 8 0, 6, 6⟩ = none ∧
    iterNext 8 [] ⟨0, List.replicate 8 0, 8, 8⟩ = none := by
  refine ⟨by decide, ?_, by decide⟩
  have h1 : ¬(8 ≤ (6 : Nat) ∧ (3 : Nat) = 0) := by omega
  unfold iterNext
  rw [if_neg (by simpa using h1)]
  rw [if_neg (by simp)]
  rfl

/-- C2 (amended): after appending records `R1 … Rn` **and flushing up to
the latest LSN** (`flush(latest_lsn)`), a `LogIterator` obtained from
`iter()` yields exactly `Rn, …, R1`. (Without the flush the records still
only in the in-memory tail page are missing from the scan, because
`iter()` reads the tail block from disk — see the counterexample.) -/
theorem claim_C2 (bs : Nat) (recs : List (List Nat)) (h8 : 8 ≤ bs)
    (hbs : bs < 2 ^ 31) (hwf : ∀ r ∈ recs, r.length + 8 ≤ bs) :
    ∃ s, appendAll bs (logInit bs) recs = some s ∧
      logRecords bs (flushL bs s s.latestLsn) = .ok recs.reverse := by
  obtain ⟨s, hall, hinv⟩ := appendAll_inv h8 hbs recs [] (logInit bs)
    (logInit_inv h8 hbs) hwf
  exact ⟨s, hall, log_reverse_scan h8 hbs (by simpa using hinv)⟩

/-- C2 witness: two records, the second of which rolls over into a new
block; the flushed scan returns them newest first. -/
theorem claim_C2_witness :
    (∀ r ∈ [[1, 2, 3], [4, 5, 6, 7, 8, 9]], List.length r + 8 ≤ 20) ∧
    ∃ s, appendAll 20 (logInit 20) [[1, 2, 3], [4, 5, 6, 7, 8, 9]] =
        some s ∧
      logRecords 20 (flushL 20 s s.latestLsn) =
        .ok [[4, 5, 6, 7, 8, 9], [1, 2, 3]] :=
  ⟨by decide, claim_C2 20 [[1, 2, 3], [4, 5, 6, 7, 8, 9]] (by decide)
    (by decide) (by decide)⟩

/-- C2 counterexample to the original claim: one record appended without a
flush; the scan reads the stale on-disk tail block and yields nothing
instead of `[R1]`. -/
theorem claim_C2_counterexample :
    (appendL 20 (logInit 20) [1, 2, 3]).1 = .ok 1 ∧
    logRecords 20 (appendL 20 (logInit 20) [1, 2, 3]).2 = .ok [] ∧
    logRecords 20 (appendL 20 (logInit 20) [1, 2, 3]).2 ≠
      .ok [[1, 2, 3]] := by
  have hb : getIntegerP
      (diskRead 20 (appendL 20 (logInit 20) [1, 2, 3]).2.disk
        (appendL 20 (logInit 20) [1, 2, 3]).2.currentBlock) 0 =
      .ok 20 := by decide
  have hnone : iterNext 20 (appendL 20 (logInit 20) [1, 2, 3]).2.disk
      ⟨(appendL 20 (logInit 20) [1, 2, 3]).2.currentBlock,
        diskRead 20 (appendL 20 (logInit 20) [1, 2, 3]).2.disk
          (appendL 20 (logInit 20) [1, 2, 3]).2.currentBlock,
        intToUsize 20, 20⟩ = none := by decide
  have hlr : logRecords 20 (appendL 20 (logInit 20) [1, 2, 3]).2 =
      .ok [] := by
    unfold logRecords
    simp only [hb]
    rw [iterAll_none hnone]
  refine ⟨by decide, hlr, ?_⟩
  rw [hlr]
  decide

lemma blockRepr_last_record {bs : Nat} {p r : List Nat}
    {g : List (List Nat)} (hbs : bs < 2 ^ 31)
    (h : blockRepr bs p (g ++ [r])) :
    getBytesP p (bs - sizeSum (g ++ [r])) = .ok r := by
  obtain ⟨hplen, hbdry, hfit, hregion, hwf⟩ := h
  have hrev : (g ++ [r]).reverse = r :: g.reverse := by simp
  have hsz : sizeSum (g ++ [r]) = sizeSum (r :: g.reverse) := by
    rw [sizeSum_cons, sizeSum_reverse, sizeSum_append, sizeSum_cons,
      sizeSum_nil]
    omega
  rw [hrev] at hregion
  rw [hsz] at hregion ⊢
  have hrwf : r.length < 2 ^ 31 := by
    have := hwf r (by simp)
    omega
  exact (region_head hrwf (by omega) hregion).1

/-- C3 (amended): `append` allocates a new tail block (after force-flushing
the old tail) exactly when `boundary < 4 + (4 + L)` — the 4-byte boundary
header plus the length-prefixed record must fit below the boundary, so the
original threshold `4 + L` is off by the header word; otherwise the record
is written in place at `boundary − 4 − L` and the boundary is updated to
that offset. -/
theorem claim_C3 (bs : Nat) (s : LogState) (r : List Nat)
    (g : List (List Nat)) (h8 : 8 ≤ bs) (hbs : bs < 2 ^ 31)
    (hrepr : blockRepr bs s.logPage g)
    (hcb : s.currentBlock < s.disk.length)
    (hwf : r.length + 8 ≤ bs) :
    (sizeSum g + 8 + r.length ≤ bs →
      ∃ p', appendL bs s r =
          (.ok (s.latestLsn + 1),
            { s with logPage := p', latestLsn := s.latestLsn + 1 }) ∧
        getIntegerP p' 0 =
          .ok ((bs - sizeSum g - (4 + r.length) : Nat) : Int) ∧
        getBytesP p' (bs - sizeSum g - (4 + r.length)) = .ok r) ∧
    (bs < sizeSum g + 8 + r.length →
      ∃ s', appendL bs s r = (.ok (s.latestLsn + 1), s') ∧
        s'.disk.length = s.disk.length + 1 ∧
        s'.currentBlock = s.disk.length ∧
        diskRead bs s'.disk s.currentBlock = s.logPage ∧
        s'.latestSavedLsn = s.latestLsn ∧
        getIntegerP s'.logPage 0 =
          .ok ((bs - (4 + r.length) : Nat) : Int) ∧
        getBytesP s'.logPage (bs - (4 + r.length)) = .ok r) := by
  obtain ⟨hplen, hbdry, hfit, hregion, hwfg⟩ := hrepr
  constructor
  · -- the record fits: in-place write, no allocation
    intro hf
    obtain ⟨p2, p3, hset2, hset3, hrepr', hp3len⟩ :=
      write_record_into_repr hbs ⟨hplen, hbdry, hfit, hregion, hwfg⟩ hf
    have hposeq : bs - sizeSum g - (4 + r.length) =
        (bs - sizeSum g) - (r.length + 4) := by omega
    rw [hposeq] at hset2 hset3
    have happ := appendL_reduce_fits bs hbdry (by omega) (by omega)
      hset2 hset3
    have hszApp : bs - sizeSum (g ++ [r]) =
        bs - sizeSum g - (4 + r.length) := by
      rw [sizeSum_append, sizeSum_cons, sizeSum_nil]
      omega
    refine ⟨p3, happ, ?_, ?_⟩
    · rw [← hszApp]
      exact hrepr'.2.1
    · rw [← hszApp]
      exact blockRepr_last_record hbs hrepr'
  · -- rollover
    intro hnf
    have hsetb : setIntegerP s.logPage 0 (natToI32 bs) =
        (.ok (), writeAt s.logPage 0 (i32ToBytes (natToI32 bs))) := by
      unfold setIntegerP
      rw [if_pos (by omega)]
    set pReset := writeAt s.logPage 0 (i32ToBytes (natToI32 bs)) with hpReset
    have hpResetLen : pReset.length = bs := by
      rw [hpReset, length_writeAt (by rw [i32ToBytes_length]; omega), hplen]
    have hb2 : getIntegerP pReset 0 = .ok ((bs : Nat) : Int) := by
      unfold getIntegerP
      rw [if_pos (by omega), hpReset]
      rw [readBE4_writeAt_nat hbs (by omega)]
    have hreprReset : blockRepr bs pReset [] :=
      blockRepr_empty (by omega) hpResetLen hb2
    have hfitsEmpty : sizeSum ([] : List (List Nat)) + 8 + r.length ≤ bs := by
      rw [sizeSum_nil]
      omega
    obtain ⟨p2, p3, hset2, hset3, hrepr', hp3len⟩ :=
      write_record_into_repr hbs hreprReset hfitsEmpty
    rw [show bs - sizeSum [] - (4 + r.length) = bs - (r.length + 4) by
      rw [sizeSum_nil]; omega] at hset2 hset3
    have hrepr1 : blockRepr bs p3 [r] := by
      rw [show ([r] : List (List Nat)) = [] ++ [r] by simp]
      exact hrepr'
    have happ := appendL_reduce_roll bs hbdry (by omega) (by omega)
      (by omega) hsetb hb2 hset2 hset3
    rw [fmWrite_lt hcb] at happ
    rw [show fmWrite bs (s.disk.set s.currentBlock s.logPage)
        (s.disk.set s.currentBlock s.logPage).length (zeroPage bs) =
        s.disk.set s.currentBlock s.logPage ++ [zeroPage bs] from
      fmWrite_at_length] at happ
    rw [show fmWrite bs (s.disk.set s.currentBlock s.logPage ++ [zeroPage bs])
        (s.disk.set s.currentBlock s.logPage).length pReset =
        s.disk.set s.currentBlock s.logPage ++ [pReset] by
      rw [fmWrite_lt (by simp), List.length_set, ← List.length_set s.disk
        s.currentBlock s.logPage, set_append_length]] at happ
    rw [List.length_set] at happ
    refine ⟨_, happ, ?_, rfl, ?_, rfl, ?_, ?_⟩
    · simp only [List.length_append, List.length_set, List.length_cons,
        List.length_nil]
    · show diskRead bs (s.disk.set s.currentBlock s.logPage ++ [pReset])
        s.currentBlock = s.logPage
      unfold diskRead
      rw [getD_append_left (by rw [List.length_set]; omega),
        getD_set_self hcb]
    · have := hrepr1.2.1
      rw [show bs - sizeSum [r] = bs - (4 + r.length) by
        simp only [sizeSum_cons, sizeSum_nil]; omega] at this
      exact this
    · have := blockRepr_last_record hbs
        (show blockRepr bs p3 ([] ++ [r]) by simpa using hrepr1)
      rw [show bs - sizeSum ([] ++ [r]) = bs - (4 + r.length) by
        simp only [sizeSum_append, sizeSum_cons, sizeSum_nil]; omega] at this
      exact this

/-- C3 witness: the fits branch on the fresh log page. -/
theorem claim_C3_witness :
    ∃ p', appendL 20 (logInit 20) [7] =
        (.ok ((logInit 20).latestLsn + 1),
          { (logInit 20) with
            logPage := p'
            latestLsn := (logInit 20).latestLsn + 1 }) ∧
      getIntegerP p' 0 =
        .ok ((20 - sizeSum ([] : List (List Nat)) -
          (4 + List.length [7] ) : Nat) : Int) ∧
      getBytesP p'
        (20 - sizeSum ([] : List (List Nat)) - (4 + List.length [7])) =
        .ok [7] :=
  (claim_C3 20 (logInit 20) [7] [] (by decide) (by decide)
    (by unfold blockRepr; exact ⟨by decide, by decide, by decide, by decide,
      by decide⟩)
    (by decide) (by decide)).1 (by decide)

/-- C3 counterexample to the original claim: with boundary 6 a record of
length 1 needs only `4 + 1 = 5 ≤ 6` bytes, so the claim predicts an
in-place write, but `append` allocates a new block (the code's threshold is
`8 + L`, reserving the 4-byte boundary header). -/
theorem claim_C3_counterexample :
    getIntegerP (appendL 14 (logInit 14) [9, 9, 9, 9]).2.logPage 0 =
      .ok 6 ∧
    4 + List.length [5] ≤ 6 ∧
    (appendL 14 (logInit 14) [9, 9, 9, 9]).2.disk.length = 1 ∧
    (appendL 14 (appendL 14 (logInit 14) [9, 9, 9, 9]).2 [5]).2.disk.length
      = 2 := by decide

/-- C4 (amended): starting from a fresh pool, for every admissible call
sequence — `unpin` only ever applied to a currently pinned slot — no call
panics and afterwards `available` equals the number of slots with zero
pins. (Unrestricted `unpin` breaks this: see the counterexample, where
`unpin` on an already-unpinned buffer pushes `available` past the pool
size, because the code increments whenever the count ends at zero rather
than only on the transition to zero.) -/
theorem claim_C4 (bs n : Nat) (ops : List MOp)
    (hok : okRun bs (sysInit bs, mgrInit bs n) ops = true) :
    ∃ s', mgrRun bs (sysInit bs, mgrInit bs n) ops = some s' ∧
      s'.2.available = countUnpinned s'.2.pool := by
  obtain ⟨s', hrun, hinv⟩ := mgrRun_inv ops (sysInit bs, mgrInit bs n)
    (mgrInit_inv bs n) hok
  exact ⟨s', hrun, hinv.1⟩

/-- C4 witness: pin, unpin and re-pin on a two-slot pool. -/
theorem claim_C4_witness :
    ∃ s', mgrRun 4 (sysInit 4, mgrInit 4 2)
        [MOp.pin (0, 0), MOp.unpin 0, MOp.pin (0, 1)] = some s' ∧
      s'.2.available = countUnpinned s'.2.pool :=
  claim_C4 4 2 [MOp.pin (0, 0), MOp.unpin 0, MOp.pin (0, 1)] (by decide)

/-- C4 counterexample to the original claim: `unpin` on an already-unpinned
buffer still increments `available`, pushing it to 2 on a one-slot pool and
breaking `available = #unpinned`. -/
theorem claim_C4_counterexample :
    (mgrInit 4 1).pool.length = 1 ∧
    countUnpinned (mgrInit 4 1).pool = 1 ∧
    (mgrStep 4 (sysInit 4, mgrInit 4 1) (MOp.unpin 0)).map
      (fun s => s.2.available) = some 2 ∧
    (mgrStep 4 (sysInit 4, mgrInit 4 1) (MOp.unpin 0)).map
      (fun s => countUnpinned s.2.pool) = some 1 := by decide

end Rimple
